import Mathlib

/-!
# resh evaluate: record enrichment, scoring harness and the bash-like recency strategy

A shallow embedding of `cmd/evaluate/main.go` and `cmd/evaluate/strategy-recent-bash.go`, and
of the timezone offset of `collect/resh-collect.go`.

Conventions of the embedding.
* A Go `string` is a Lean `String`; `len` of a Go string is its UTF-8 byte size.
* A Go slice is the list of its elements and `nil` is the empty list.
* A Go map read only through lookups is a total function returning the zero value
  (or `none` where the code asks whether the key was found).
* `uint64` counters are natural numbers reduced modulo `2 ^ 64`; Go `int` values are integers.
* `log.Fatal` ends the process: the embedded function returns `none`.
-/

namespace Resh

/-- Modelled from the spec: `records.EnrichedRecord` of package `pkg/records`, restricted to the
fields that the evaluator and the strategies read or write. -/
structure EnrichedRecord where
  CmdLine : String
  CmdLength : Int
  ExitCode : Int
  SessionID : String
  Sanitized : Bool
  SeqSessionID : Nat
  LastRecordOfSession : Bool
  DebugThisRecord : Bool
  deriving DecidableEq, Repr

/-- Go struct `matchJSON`. -/
structure matchJSON where
  Match : Bool
  Distance : Int
  CharsRecalled : Int
  deriving DecidableEq, Repr

/-- Go struct `multiMatchItemJSON`. -/
structure multiMatchItemJSON where
  Distance : Int
  CharsRecalled : Int
  deriving DecidableEq, Repr

/-- Go struct `multiMatchJSON`. -/
structure multiMatchJSON where
  Match : Bool
  Entries : List multiMatchItemJSON
  deriving DecidableEq, Repr

/-- Go struct `strategyJSON`. -/
structure strategyJSON where
  Title : String
  Description : String
  Matches : List matchJSON
  PrefixMatches : List multiMatchJSON
  deriving DecidableEq, Repr

/-- Go struct `deviceRecords`. -/
structure deviceRecords where
  Name : String
  Records : List EnrichedRecord
  deriving DecidableEq, Repr

/-- Go struct `userRecords`. -/
structure userRecords where
  Name : String
  Devices : List deviceRecords
  deriving DecidableEq, Repr

/-- Go struct `evaluator`. `debugRecords` is the `float64` sampling rate as a rational: an
infinite rate acts like any rate of at least one, and a NaN like zero. -/
structure evaluator where
  sanitizedInput : Bool
  BatchMode : Bool
  maxCandidates : Int
  skipFailedCmds : Bool
  debugRecords : Rat
  UsersRecords : List userRecords
  Strategies : List strategyJSON

/-- Bound of a Go slice length (`int` is at most 64 bits wide). -/
def maxSliceLen : Nat := 2 ^ 63

/-- State of the forward loop of `preprocessDeviceRecords`: the map `sessionIDs` and `nextID`. -/
structure SeqState where
  sessionIDs : String → Option Nat
  nextID : Nat

/-- One iteration of the forward loop (lines 288-307) on the record at index `k`.
`draw` is the value `rand.Float64()` returns when it is called for this record. -/
def seqStep (sanitizedInput : Bool) (debugRecords : Rat) (draw : Rat)
    (st : SeqState) (record : EnrichedRecord) : Option (SeqState × EnrichedRecord) :=
  let found := st.sessionIDs record.SessionID
  let id := match found with
    | some v => v
    | none => st.nextID
  let st1 : SeqState := match found with
    | some _ => st
    | none =>
      { sessionIDs := fun s => if s = record.SessionID then some st.nextID else st.sessionIDs s,
        nextID := (st.nextID + 1) % 2 ^ 64 }
  if record.Sanitized != sanitizedInput then
    none
  else
    let dbg := if debugRecords > 0 && draw < debugRecords then true else record.DebugThisRecord
    some (st1, { record with SeqSessionID := id, DebugThisRecord := dbg })

/-- The forward loop over `device.Records`, from index `k` on. -/
def seqLoop (sanitizedInput : Bool) (debugRecords : Rat) (rnd : Nat → Rat) :
    SeqState → Nat → List EnrichedRecord → Option (List EnrichedRecord)
  | _, _, [] => some []
  | st, k, record :: rest =>
    match seqStep sanitizedInput debugRecords (rnd k) st record with
    | none => none
    | some (st1, r1) =>
      match seqLoop sanitizedInput debugRecords rnd st1 (k + 1) rest with
      | none => none
      | some rest1 => some (r1 :: rest1)

/-- The backward loop (lines 316-325): returns the records and the set `sessionIDSet`
reached once the index has gone down to the head of the list. -/
def markLast : List EnrichedRecord → List EnrichedRecord × (String → Bool)
  | [] => ([], fun _ => false)
  | record :: rest =>
    let (rest1, sessionIDSet) := markLast rest
    if sessionIDSet record.SessionID then
      (record :: rest1, sessionIDSet)
    else
      ({ record with LastRecordOfSession := true } :: rest1,
        fun s => if s = record.SessionID then true else sessionIDSet s)

/-- Embedding of `evaluator.preprocessDeviceRecords`; `rnd k` is the value of the call of
`rand.Float64()` made for the record at index `k`. -/
def preprocessDeviceRecords (e : evaluator) (rnd : Nat → Rat) (device : deviceRecords) :
    Option deviceRecords :=
  match seqLoop e.sanitizedInput e.debugRecords rnd
      { sessionIDs := fun _ => none, nextID := 1 } 0 device.Records with
  | none => none
  | some rs => some { device with Records := (markLast rs).1 }

/-- The distinct elements of a list in the order of their first occurrence. -/
def firstSeen : List String → List String
  | [] => []
  | s :: rest => s :: (firstSeen rest).filter (fun t => t ≠ s)

/-- The session ids of a record list, in list order. -/
def sessionsOf (l : List EnrichedRecord) : List String := l.map (fun r => r.SessionID)

/-! ### The strategy interface and the evaluation harness -/

/-- Go `error`; `nil` is `none`. -/
abbrev GoError := Option String

/-- Go interface `IStrategy` over a strategy whose private state has type `σ`. Every method
may change the state of its receiver. -/
structure IStrategy (σ : Type) where
  GetTitleAndDescription : σ → (String × String) × σ
  GetCandidates : σ → EnrichedRecord → List String × σ
  AddHistoryRecord : σ → EnrichedRecord → GoError × σ
  ResetHistory : σ → GoError × σ

/-- The byte sequence of a Go string. -/
def goBytes (s : String) : List UInt8 := s.data.flatMap String.utf8EncodeChar

/-- Length of the longest common prefix of two lists. -/
def commonPrefixLen : List UInt8 → List UInt8 → Nat
  | a :: as, b :: bs => if a = b then commonPrefixLen as bs + 1 else 0
  | _, _ => 0

/-- Documented contract of `len(longestcommon.Prefix([]string{a, b}))` of the library
`github.com/jpillora/longestcommon`: the number of bytes of the longest common prefix. The
harness below takes this function as the argument `prefixLen`. -/
def longestcommonPrefixLen (a b : String) : Nat := commonPrefixLen (goBytes a) (goBytes b)

/-- Local variables of the scoring loop of `evaluate` that survive an iteration. -/
structure ScanState where
  matchFound : Bool
  longestPrefixMatchLength : Nat
  multiMatch : multiMatchJSON
  strategyData : strategyJSON

/-- The loop over the candidates (lines 380-399), from the candidate at index `i` on. -/
def scanCandidates (prefixLen : String → String → Nat) (record : EnrichedRecord) :
    Nat → List String → ScanState → ScanState
  | _, [], st => st
  | i, candidate :: rest, st =>
    let commonPrefixLength := prefixLen candidate record.CmdLine
    let st1 : ScanState :=
      if commonPrefixLength > st.longestPrefixMatchLength then
        { st with
          longestPrefixMatchLength := commonPrefixLength
          multiMatch :=
            { Match := true
              Entries := st.multiMatch.Entries ++
                [{ Distance := (i : Int) + 1, CharsRecalled := (commonPrefixLength : Int) }] } }
      else st
    if candidate = record.CmdLine then
      { st1 with
        matchFound := true
        strategyData :=
          { st1.strategyData with
            Matches := st1.strategyData.Matches ++
              [{ Match := true, Distance := (i : Int) + 1, CharsRecalled := record.CmdLength }]
            PrefixMatches := st1.strategyData.PrefixMatches ++ [st1.multiMatch] } }
    else
      scanCandidates prefixLen record (i + 1) rest st1

/-- Lines 377-403 of `evaluate`: scoring of one record against the candidates. -/
def scoreRecord (prefixLen : String → String → Nat) (record : EnrichedRecord)
    (candidates : List String) (strategyData : strategyJSON) : strategyJSON :=
  let st := scanCandidates prefixLen record 0 candidates
    { matchFound := false, longestPrefixMatchLength := 0,
      multiMatch := { Match := false, Entries := [] }, strategyData := strategyData }
  if st.matchFound = false then
    { st.strategyData with
      Matches := st.strategyData.Matches ++ [{ Match := false, Distance := 0, CharsRecalled := 0 }]
      PrefixMatches := st.strategyData.PrefixMatches ++ [st.multiMatch] }
  else st.strategyData

/-- Whether `evaluate` skips the record (line 347). -/
def skipped (e : evaluator) (record : EnrichedRecord) : Bool :=
  e.skipFailedCmds && record.ExitCode != 0

/-- Body of the loop over the records of a device (lines 346-411). `Stripped` is
`records.Stripped` of package `pkg/records`. The second component is the error with which
`evaluate` returns from inside the loop, if any. -/
def evalRecord {σ : Type} (Stripped : EnrichedRecord → EnrichedRecord)
    (prefixLen : String → String → Nat) (e : evaluator) (strategy : IStrategy σ)
    (st : strategyJSON × σ) (record : EnrichedRecord) : (strategyJSON × σ) × GoError :=
  if skipped e record then (st, none)
  else
    let (candidates, s1) := strategy.GetCandidates st.2 (Stripped record)
    let strategyData := scoreRecord prefixLen record candidates st.1
    let (err, s2) := strategy.AddHistoryRecord s1 record
    ((strategyData, s2), err)

/-- The loop over the records of a device; it stops at the first error. -/
def evalRecords {σ : Type} (Stripped : EnrichedRecord → EnrichedRecord)
    (prefixLen : String → String → Nat) (e : evaluator) (strategy : IStrategy σ) :
    List EnrichedRecord → strategyJSON × σ → (strategyJSON × σ) × GoError
  | [], st => (st, none)
  | record :: rest, st =>
    match evalRecord Stripped prefixLen e strategy st record with
    | (st1, some err) => (st1, some err)
    | (st1, none) => evalRecords Stripped prefixLen e strategy rest st1

/-- Body of the loop over the devices of a user (lines 344-413): the records, then
`strategy.ResetHistory()`, whose result is dropped. -/
def evalDevice {σ : Type} (Stripped : EnrichedRecord → EnrichedRecord)
    (prefixLen : String → String → Nat) (e : evaluator) (strategy : IStrategy σ)
    (st : strategyJSON × σ) (device : deviceRecords) : (strategyJSON × σ) × GoError :=
  match evalRecords Stripped prefixLen e strategy device.Records st with
  | (st1, some err) => (st1, some err)
  | ((strategyData, s1), none) => ((strategyData, (strategy.ResetHistory s1).2), none)

/-- The loop over the devices of a user. -/
def evalDevices {σ : Type} (Stripped : EnrichedRecord → EnrichedRecord)
    (prefixLen : String → String → Nat) (e : evaluator) (strategy : IStrategy σ) :
    List deviceRecords → strategyJSON × σ → (strategyJSON × σ) × GoError
  | [], st => (st, none)
  | device :: rest, st =>
    match evalDevice Stripped prefixLen e strategy st device with
    | (st1, some err) => (st1, some err)
    | (st1, none) => evalDevices Stripped prefixLen e strategy rest st1

/-- The loop over the users (line 342). -/
def evalUsers {σ : Type} (Stripped : EnrichedRecord → EnrichedRecord)
    (prefixLen : String → String → Nat) (e : evaluator) (strategy : IStrategy σ) :
    List userRecords → strategyJSON × σ → (strategyJSON × σ) × GoError
  | [], st => (st, none)
  | user :: rest, st =>
    match evalDevices Stripped prefixLen e strategy user.Devices st with
    | (st1, some err) => (st1, some err)
    | (st1, none) => evalUsers Stripped prefixLen e strategy rest st1

/-- Embedding of `evaluator.evaluate`: the returned error, the evaluator and the state of the
strategy after the call. -/
def evaluate {σ : Type} (Stripped : EnrichedRecord → EnrichedRecord)
    (prefixLen : String → String → Nat) (e : evaluator) (strategy : IStrategy σ) (s : σ) :
    GoError × evaluator × σ :=
  let ((title, description), s0) := strategy.GetTitleAndDescription s
  let strategyData : strategyJSON :=
    { Title := title, Description := description, Matches := [], PrefixMatches := [] }
  match evalUsers Stripped prefixLen e strategy e.UsersRecords (strategyData, s0) with
  | ((_, s1), some err) => (some err, e, s1)
  | ((strategyData1, s1), none) =>
    (none, { e with Strategies := e.Strategies ++ [strategyData1] }, s1)

/-- A call of a method of `IStrategy`. -/
inductive Call where
  | GetTitleAndDescription
  | GetCandidates (strippedRecord : EnrichedRecord)
  | AddHistoryRecord (record : EnrichedRecord)
  | ResetHistory
  deriving DecidableEq, Repr

/-- A strategy that forwards every call to `strategy` and keeps the log of the calls made. -/
def traced {σ : Type} (strategy : IStrategy σ) : IStrategy (σ × List Call) where
  GetTitleAndDescription := fun s =>
    ((strategy.GetTitleAndDescription s.1).1,
      ((strategy.GetTitleAndDescription s.1).2, s.2 ++ [Call.GetTitleAndDescription]))
  GetCandidates := fun s r =>
    ((strategy.GetCandidates s.1 r).1,
      ((strategy.GetCandidates s.1 r).2, s.2 ++ [Call.GetCandidates r]))
  AddHistoryRecord := fun s r =>
    ((strategy.AddHistoryRecord s.1 r).1,
      ((strategy.AddHistoryRecord s.1 r).2, s.2 ++ [Call.AddHistoryRecord r]))
  ResetHistory := fun s =>
    ((strategy.ResetHistory s.1).1, ((strategy.ResetHistory s.1).2, s.2 ++ [Call.ResetHistory]))

/-- A strategy without memory that always proposes the same candidates. -/
def fixedStrategy (candidates : List String) : IStrategy Unit where
  GetTitleAndDescription := fun s => (("fixed", "always the same candidates"), s)
  GetCandidates := fun s _ => (candidates, s)
  AddHistoryRecord := fun s _ => (none, s)
  ResetHistory := fun s => (none, s)

/-! ### The bash-like recency strategy (`strategy-recent-bash.go`) -/

/-- Go struct `strategyRecentBash` once `init` has made its maps. A slice is the list of its
elements and `nil` is the empty list: the code never stores a slice that is empty and not
`nil` in `histfile` or `histfileSnapshot`, since every value assigned to `histfile` begins
with the command just added. -/
structure strategyRecentBash where
  histfile : List String
  histfileSnapshot : String → List String
  history : String → List String

namespace strategyRecentBash

/-- Embedding of `strategyRecentBash.init`. -/
def init (s : strategyRecentBash) : strategyRecentBash :=
  { s with histfileSnapshot := fun _ => [], history := fun _ => [] }

/-- The strategy as `main` builds it: the zero value, then `init`. -/
def new : strategyRecentBash :=
  init { histfile := [], histfileSnapshot := fun _ => [], history := fun _ => [] }

/-- Embedding of `strategyRecentBash.GetCandidates`: the candidates and the state after. -/
def GetCandidates (s : strategyRecentBash) (strippedRecord : EnrichedRecord) :
    List String × strategyRecentBash :=
  let s1 : strategyRecentBash :=
    if s.histfileSnapshot strippedRecord.SessionID = [] then
      { s with histfileSnapshot := fun k =>
          if k = strippedRecord.SessionID then s.histfile else s.histfileSnapshot k }
    else s
  (s1.history strippedRecord.SessionID ++ s1.histfileSnapshot strippedRecord.SessionID, s1)

/-- The loop of `AddHistoryRecord` that removes the earlier occurrence (lines 30-34), with
`n` iterations left and the next one at index `i`. The range expression is evaluated once, so
the loop runs over the `arr.length` cells of the backing array `arr`, which `append` shifts in
place, while `len` is the current length of `s.history[record.SessionID]`. The result is
`none` when the slice expression `s.history[record.SessionID][i+1:]` is out of range. -/
def removeLoop (cmdLine : String) : Nat → Nat → List String → Nat → Option (List String)
  | 0, _, arr, len => some (arr.take len)
  | n + 1, i, arr, len =>
    if arr.getD i "" = cmdLine then
      if i + 1 ≤ len then
        removeLoop cmdLine n (i + 1)
          (arr.take i ++ (arr.drop (i + 1)).take (len - (i + 1)) ++ arr.drop (len - 1)) (len - 1)
      else none
    else removeLoop cmdLine n (i + 1) arr len

/-- Embedding of `strategyRecentBash.AddHistoryRecord`: the returned error and the state
after, or `none` when the call panics. -/
def AddHistoryRecord (s : strategyRecentBash) (record : EnrichedRecord) :
    Option (GoError × strategyRecentBash) :=
  match removeLoop record.CmdLine (s.history record.SessionID).length 0
      (s.history record.SessionID) (s.history record.SessionID).length with
  | none => none
  | some removed =>
    let hist := record.CmdLine :: removed
    if record.LastRecordOfSession then
      some (none,
        { histfile := hist ++ s.histfile
          histfileSnapshot := fun k => if k = record.SessionID then [] else s.histfileSnapshot k
          history := fun k => if k = record.SessionID then [] else s.history k })
    else
      some (none, { s with history := fun k => if k = record.SessionID then hist else s.history k })

/-- Embedding of `strategyRecentBash.ResetHistory`. -/
def ResetHistory (s : strategyRecentBash) : GoError × strategyRecentBash :=
  (none, s.init)

/-- One call on the strategy: the state after and the candidates returned, if any. -/
def call (s : strategyRecentBash) : Call → Option (strategyRecentBash × List (List String))
  | Call.GetTitleAndDescription => some (s, [])
  | Call.GetCandidates q => some ((s.GetCandidates q).2, [(s.GetCandidates q).1])
  | Call.AddHistoryRecord r => (s.AddHistoryRecord r).map (fun x => (x.2, []))
  | Call.ResetHistory => some (s.ResetHistory.2, [])

/-- A sequence of calls on the strategy: the state after and the candidate lists returned by
the calls of GetCandidates, in order; `none` when a call panics. -/
def run : strategyRecentBash → List Call → Option (strategyRecentBash × List (List String))
  | s, [] => some (s, [])
  | s, c :: cs =>
    match s.call c with
    | none => none
    | some (s1, o1) =>
      match run s1 cs with
      | none => none
      | some (s2, o2) => some (s2, o1 ++ o2)

end strategyRecentBash

/-- Every in-session list of the strategy is free of duplicates. -/
def strategyRecentBash.WF (s : strategyRecentBash) : Prop :=
  ∀ sid, (s.history sid).Nodup

/-- The state `AddHistoryRecord` leaves, in terms of `List.erase`. -/
def strategyRecentBash.added (s : strategyRecentBash) (record : EnrichedRecord) :
    strategyRecentBash :=
  if record.LastRecordOfSession then
    { histfile := (record.CmdLine :: (s.history record.SessionID).erase record.CmdLine) ++
        s.histfile
      histfileSnapshot := fun k => if k = record.SessionID then [] else s.histfileSnapshot k
      history := fun k => if k = record.SessionID then [] else s.history k }
  else
    { s with history := fun k =>
        if k = record.SessionID then
          record.CmdLine :: (s.history record.SessionID).erase record.CmdLine
        else s.history k }

/-- The command `c` was added to session `sid` by a call of the sequence. -/
def AddedIn (tr : List Call) (sid c : String) : Prop :=
  ∃ r, Call.AddHistoryRecord r ∈ tr ∧ r.SessionID = sid ∧ r.CmdLine = c

/-- The command `c` was added to a session that ended at that call or later in the
sequence. -/
def FlushedIn (tr : List Call) (c : String) : Prop :=
  ∃ (t1 t2 : List Call) (r0 r1 : EnrichedRecord),
    tr = t1 ++ Call.AddHistoryRecord r1 :: t2 ∧ r1.LastRecordOfSession = true ∧
    Call.AddHistoryRecord r0 ∈ t1 ++ [Call.AddHistoryRecord r1] ∧
    r0.SessionID = r1.SessionID ∧ r0.CmdLine = c

/-- No call of the sequence concerns session `sid`. -/
def NewSession (tr : List Call) (sid : String) : Prop :=
  (∀ q, Call.GetCandidates q ∈ tr → q.SessionID ≠ sid) ∧
  (∀ r, Call.AddHistoryRecord r ∈ tr → r.SessionID ≠ sid)

/-- Invariant of the strategy after the calls `tr` made on a new strategy: the in-session
lists are duplicate-free and hold only commands added to their session, the history file and
the snapshots hold only commands of sessions that ended, and a session no call concerned has
neither an in-session list nor a snapshot. -/
def TraceInv (tr : List Call) (s : strategyRecentBash) : Prop :=
  s.WF ∧
  (∀ sid c, c ∈ s.history sid → AddedIn tr sid c) ∧
  (∀ c, c ∈ s.histfile → FlushedIn tr c) ∧
  (∀ sid c, c ∈ s.histfileSnapshot sid → FlushedIn tr c) ∧
  (∀ sid, NewSession tr sid → s.history sid = [] ∧ s.histfileSnapshot sid = [])

/-- A record of session `sid` running `cmd`, flagged as the last of its session or not. -/
def sessionRecord (sid cmd : String) (last : Bool) : EnrichedRecord :=
  { CmdLine := cmd, CmdLength := (cmd.utf8ByteSize : Int), ExitCode := 0, SessionID := sid,
    Sanitized := false, SeqSessionID := 0, LastRecordOfSession := last,
    DebugThisRecord := false }

/-! ### Specification-side functions for the scoring loop -/

/-- Number of candidates the scoring loop looks at: up to and including the first one
equal to the command line, or all of them. -/
def scanLen (cmd : String) (candidates : List String) : Nat :=
  if cmd ∈ candidates then candidates.indexOf cmd + 1 else candidates.length

/-- Common-prefix length of the candidate at index `i` with the command line. -/
def prefixAt (prefixLen : String → String → Nat) (cmd : String) (candidates : List String)
    (i : Nat) : Nat :=
  prefixLen (candidates.getD i "") cmd

/-- The candidate at index `i` has a positive common prefix that is strictly longer than
that of every earlier candidate. -/
def improving (prefixLen : String → String → Nat) (cmd : String) (candidates : List String)
    (i : Nat) : Bool :=
  decide (0 < prefixAt prefixLen cmd candidates i) &&
    decide (∀ j, j < i → prefixAt prefixLen cmd candidates j < prefixAt prefixLen cmd candidates i)

/-- The partial-match entry recorded for the candidate at index `i`. -/
def entryAt (prefixLen : String → String → Nat) (cmd : String) (candidates : List String)
    (i : Nat) : multiMatchItemJSON :=
  { Distance := (i : Int) + 1, CharsRecalled := (prefixAt prefixLen cmd candidates i : Int) }

/-- The partial-match entries as the specification words them: the improving candidates
among the scanned ones, in scan order. -/
def improvingEntries (prefixLen : String → String → Nat) (cmd : String)
    (candidates : List String) : List multiMatchItemJSON :=
  ((List.range (scanLen cmd candidates)).filter (improving prefixLen cmd candidates)).map
    (entryAt prefixLen cmd candidates)

/-- The exact-match entry as the specification words it. -/
def expectedMatch (record : EnrichedRecord) (candidates : List String) : matchJSON :=
  if record.CmdLine ∈ candidates then
    { Match := true, Distance := (candidates.indexOf record.CmdLine : Int) + 1,
      CharsRecalled := record.CmdLength }
  else { Match := false, Distance := 0, CharsRecalled := 0 }

/-- The partial-match entry as the specification words it. -/
def expectedMultiMatch (prefixLen : String → String → Nat) (record : EnrichedRecord)
    (candidates : List String) : multiMatchJSON :=
  { Match := !(improvingEntries prefixLen record.CmdLine candidates).isEmpty,
    Entries := improvingEntries prefixLen record.CmdLine candidates }

/-- All records of the evaluator, device by device in listing order. -/
def allRecords (e : evaluator) : List EnrichedRecord :=
  e.UsersRecords.flatMap (fun u => u.Devices.flatMap (fun d => d.Records))

/-- The records that `evaluate` does not skip, in processing order. -/
def evaluatedRecords (e : evaluator) : List EnrichedRecord :=
  (allRecords e).filter (fun r => !skipped e r)

/-- Strategy calls expected for one record. -/
def recordCalls (Stripped : EnrichedRecord → EnrichedRecord) (e : evaluator)
    (r : EnrichedRecord) : List Call :=
  if skipped e r then [] else [Call.GetCandidates (Stripped r), Call.AddHistoryRecord r]

/-- Strategy calls expected for one device. -/
def deviceCalls (Stripped : EnrichedRecord → EnrichedRecord) (e : evaluator)
    (d : deviceRecords) : List Call :=
  d.Records.flatMap (recordCalls Stripped e) ++ [Call.ResetHistory]

/-- Strategy calls expected for the whole record set, after the title has been asked. -/
def expectedCalls (Stripped : EnrichedRecord → EnrichedRecord) (e : evaluator) : List Call :=
  e.UsersRecords.flatMap (fun u => u.Devices.flatMap (deviceCalls Stripped e))

/-! ### Concrete inputs used to instantiate the theorems -/

/-- An evaluator over the given record set; `skip` is its failed-command-skip switch. -/
def sampleEvaluator (skip : Bool) (users : List userRecords) : evaluator :=
  { sanitizedInput := false, BatchMode := false, maxCandidates := 50, skipFailedCmds := skip,
    debugRecords := 0, UsersRecords := users, Strategies := [] }

/-- A loaded record of session `sid` running `cmd` with exit code `code`. -/
def sampleRecord (sid cmd : String) (code : Int) : EnrichedRecord :=
  { CmdLine := cmd, CmdLength := (cmd.utf8ByteSize : Int), ExitCode := code, SessionID := sid,
    Sanitized := false, SeqSessionID := 0, LastRecordOfSession := false,
    DebugThisRecord := false }

/-- An empty result of a strategy. -/
def emptyStrategyData : strategyJSON :=
  { Title := "fixed", Description := "always the same candidates", Matches := [],
    PrefixMatches := [] }

/-- A record set of one user with one device holding two sessions; the second record
failed. -/
def sampleUsers : List userRecords :=
  [{ Name := "user", Devices :=
      [{ Name := "device", Records :=
          [sampleRecord "s1" "ls" 0, sampleRecord "s1" "false" 1, sampleRecord "s2" "ls" 0] }] }]

/-- A device holding records of the sessions `s1`, `s2`, `s1`, in this order. -/
def sampleDevice : deviceRecords :=
  { Name := "device", Records :=
      [sampleRecord "s1" "ls" 0, sampleRecord "s2" "pwd" 0, sampleRecord "s1" "make" 0] }

/-! ### Relations used by the loop invariants -/

/-- Invariant of the forward loop after the session ids `pre` have been processed. -/
def SeqInv (st : SeqState) (pre : List String) : Prop :=
  (∀ s, st.sessionIDs s =
    if s ∈ pre then some ((firstSeen pre).indexOf s + 1) else none) ∧
  st.nextID = (firstSeen pre).length + 1

/-- Relation between a loaded record and its image under the forward loop. -/
def SeqRel (F : List String) (r d : EnrichedRecord) : Prop :=
  d = { r with SeqSessionID := F.indexOf r.SessionID + 1, DebugThisRecord := d.DebugThisRecord }

/-- Relation between a record and its image under the backward loop. -/
def MarkRel (a b : EnrichedRecord) : Prop :=
  b = { a with LastRecordOfSession := b.LastRecordOfSession }

/-- Facts about a run of a loop of `evaluate` on the records `rs` that ends without error:
the title is kept and both result sequences grow by one entry per record not skipped. -/
def GrowsBy (e : evaluator) (rs : List EnrichedRecord) (sd sd1 : strategyJSON) : Prop :=
  sd1.Title = sd.Title ∧ sd1.Description = sd.Description ∧
  sd1.Matches.length = sd.Matches.length + (rs.filter (fun r => !skipped e r)).length ∧
  sd1.PrefixMatches.length = sd.PrefixMatches.length + (rs.filter (fun r => !skipped e r)).length

/-- Relation between an output record of the forward loop and a record on which the loop is
run again. -/
def SameKey (o b : EnrichedRecord) : Prop :=
  b.SessionID = o.SessionID ∧ b.Sanitized = o.Sanitized ∧ b.SeqSessionID = o.SeqSessionID

/-! ### Strategy errors -/

/-- A strategy that forwards every call to `strategy` and keeps, for every call of
AddHistoryRecord and of ResetHistory, the call together with the error it returned. -/
def recorded {σ : Type} (strategy : IStrategy σ) : IStrategy (σ × List (Call × GoError)) where
  GetTitleAndDescription := fun s =>
    ((strategy.GetTitleAndDescription s.1).1, ((strategy.GetTitleAndDescription s.1).2, s.2))
  GetCandidates := fun s r =>
    ((strategy.GetCandidates s.1 r).1, ((strategy.GetCandidates s.1 r).2, s.2))
  AddHistoryRecord := fun s r =>
    ((strategy.AddHistoryRecord s.1 r).1,
      ((strategy.AddHistoryRecord s.1 r).2,
        s.2 ++ [(Call.AddHistoryRecord r, (strategy.AddHistoryRecord s.1 r).1)]))
  ResetHistory := fun s =>
    ((strategy.ResetHistory s.1).1,
      ((strategy.ResetHistory s.1).2, s.2 ++ [(Call.ResetHistory, (strategy.ResetHistory s.1).1)]))

/-- Every error that a recorded call of AddHistoryRecord returned is the error `err`. -/
def AddOK (l : List (Call × GoError)) (err : GoError) : Prop :=
  ∀ r x, (Call.AddHistoryRecord r, some x) ∈ l → err = some x

/-- The run `X` of a loop of `evaluate` on the recording strategy, started with the record
`l`, does what the run `x` on the strategy itself does, and the calls it records obey
`AddOK`. -/
def Simulates {σ : Type} (X : (strategyJSON × σ × List (Call × GoError)) × GoError)
    (x : (strategyJSON × σ) × GoError) (l : List (Call × GoError)) : Prop :=
  ∃ l2, X = ((x.1.1, (x.1.2, l ++ l2)), x.2) ∧ AddOK l2 x.2

/-- A strategy without memory whose AddHistoryRecord fails on every record with a non-zero
exit code. -/
def addFailingStrategy : IStrategy Unit where
  GetTitleAndDescription := fun s => (("add fails", "fails on failed commands"), s)
  GetCandidates := fun s _ => (["ls"], s)
  AddHistoryRecord := fun s r => (if r.ExitCode = 0 then none else some "cannot add", s)
  ResetHistory := fun s => (none, s)

/-- A strategy without memory whose ResetHistory always fails. -/
def resetFailingStrategy : IStrategy Unit where
  GetTitleAndDescription := fun s => (("reset fails", "fails on every reset"), s)
  GetCandidates := fun s _ => (["ls"], s)
  AddHistoryRecord := fun s _ => (none, s)
  ResetHistory := fun s => (some "cannot reset", s)

/-! ### The timezone offset of the collector (`collect/resh-collect.go`) -/

/-- Go `strings.Split(s, ":")` on the characters of `s`: the pieces between the colons; a
string without colon gives one piece. -/
def splitColon : List Char → List (List Char)
  | [] => [[]]
  | c :: cs =>
    if c = ':' then [] :: splitColon cs
    else
      match splitColon cs with
      | [] => [[c]]
      | piece :: pieces => (c :: piece) :: pieces

/-- Value of a sequence of decimal digits, `none` when a character is not a digit. -/
def digitsValue : List Char → Nat → Option Nat
  | [], acc => some acc
  | c :: cs, acc =>
    if '0' ≤ c ∧ c ≤ '9' then digitsValue cs (acc * 10 + (c.toNat - '0'.toNat)) else none

/-- Go `strconv.Atoi` on a 64-bit platform: an optional sign followed by at least one decimal
digit, with a value in the range of `int`; `none` stands for a returned error. -/
def Atoi (s : List Char) : Option Int :=
  let body := match s with
    | '+' :: rest => rest
    | '-' :: rest => rest
    | _ => s
  if body = [] then none
  else
    match digitsValue body 0 with
    | none => none
    | some n =>
      let v : Int := if s.head? = some '-' then -(n : Int) else (n : Int)
      if -(2 : Int) ^ 63 ≤ v ∧ v < (2 : Int) ^ 63 then some v else none

/-- Go arithmetic on `int` (64 bits): the result wraps around. -/
def wrapInt64 (x : Int) : Int := (x + 2 ^ 63) % 2 ^ 64 - 2 ^ 63

/-- Embedding of `getTimezoneOffsetInSeconds`. The value is the integer whose conversion to
`float64` the function returns (the conversion is exact up to `2 ^ 53` in absolute value);
`none` stands for the panic of `hours_mins[1]` on a zone without colon. -/
def getTimezoneOffsetInSeconds (zone : String) : Option Int :=
  let hours_mins := splitColon zone.data
  match Atoi (hours_mins.headD []) with
  | none => some (-1)
  | some hours =>
    match hours_mins[1]? with
    | none => none
    | some minsText =>
      match Atoi minsText with
      | none => some (-1)
      | some mins => some (wrapInt64 (wrapInt64 (wrapInt64 (hours * 60) + mins) * 60))

/-- The decimal digit `d` as a character. -/
def digitChar (d : Fin 10) : Char := Char.ofNat ('0'.toNat + d.val)

/-- The timezone string made of a sign, two hour digits, a colon and two minute digits. -/
def zoneString (negative : Bool) (h1 h2 m1 m2 : Fin 10) : String :=
  String.mk [if negative then '-' else '+', digitChar h1, digitChar h2, ':',
    digitChar m1, digitChar m2]

/-- The signed offset in seconds that the timezone string stands for: the minutes carry the
sign of the hours. -/
def signedOffset (negative : Bool) (h1 h2 m1 m2 : Fin 10) : Int :=
  (if negative then -1 else 1) *
    (((10 * h1.val + h2.val : Nat) : Int) * 3600 + ((10 * m1.val + m2.val : Nat) : Int) * 60)

/-! # Theorems -/

/-! ## Enrichment: sequential session ids -/

theorem mem_firstSeen (s : String) : ∀ l : List String, s ∈ firstSeen l ↔ s ∈ l
  | [] => by simp [firstSeen]
  | t :: l => by
    have ih := mem_firstSeen s l
    by_cases h : s = t
    · simp [firstSeen, h]
    · simp [firstSeen, List.mem_filter, ih, h]

theorem firstSeen_nodup : ∀ l : List String, (firstSeen l).Nodup
  | [] => by simp [firstSeen]
  | t :: l => by
    have ih := firstSeen_nodup l
    simp only [firstSeen, List.nodup_cons]
    refine ⟨?_, ih.filter _⟩
    simp [List.mem_filter]

theorem firstSeen_append (a b : List String) :
    firstSeen (a ++ b) = firstSeen a ++ (firstSeen b).filter (fun t => decide (t ∉ a)) := by
  induction a with
  | nil => simp [firstSeen]
  | cons x a ih =>
    have h1 : firstSeen (x :: a ++ b) = x :: (firstSeen (a ++ b)).filter (fun t => t ≠ x) := rfl
    have h2 : firstSeen (x :: a) = x :: (firstSeen a).filter (fun t => t ≠ x) := rfl
    rw [h1, h2, ih, List.filter_append, List.filter_filter, List.cons_append]
    congr 2
    apply List.filter_congr
    intro t _
    by_cases h : t = x <;> simp [h]

theorem firstSeen_length_le (l : List String) : (firstSeen l).length ≤ l.length := by
  induction l with
  | nil => simp [firstSeen]
  | cons x l ih =>
    simp only [firstSeen, List.length_cons]
    have := List.length_filter_le (fun t => decide (t ≠ x)) (firstSeen l)
    omega

theorem seqLoop_spec (san : Bool) (dbg : Rat) (rnd : Nat → Rat) (F : List String) :
    ∀ (rest : List EnrichedRecord) (st : SeqState) (k : Nat) (pre : List String),
      SeqInv st pre → F = firstSeen (pre ++ rest.map (fun r => r.SessionID)) →
      (firstSeen pre).length + rest.length < 2 ^ 63 →
      (∀ r ∈ rest, r.Sanitized = san) →
      ∃ out, seqLoop san dbg rnd st k rest = some out ∧ List.Forall₂ (SeqRel F) rest out := by
  intro rest
  induction rest with
  | nil => intro st k pre _ _ _ _; exact ⟨[], rfl, List.Forall₂.nil⟩
  | cons r rest ih =>
    intro st k pre hinv hF hlen hsan
    have hr : r.Sanitized = san := hsan r (List.mem_cons_self _ _)
    obtain ⟨hmap, hnext⟩ := hinv
    have hFa : F = firstSeen pre ++
        (firstSeen (r.SessionID :: rest.map (fun r => r.SessionID))).filter
          (fun t => decide (t ∉ pre)) := by
      rw [hF, List.map_cons, firstSeen_append]
    simp only [List.length_cons] at hlen
    by_cases hmem : r.SessionID ∈ pre
    · -- the session id has been seen
      have hlook : st.sessionIDs r.SessionID = some ((firstSeen pre).indexOf r.SessionID + 1) := by
        rw [hmap]; simp [hmem]
      have hinv1 : SeqInv st (pre ++ [r.SessionID]) := by
        have hfs : firstSeen (pre ++ [r.SessionID]) = firstSeen pre := by
          rw [firstSeen_append]; simp [firstSeen, hmem]
        refine ⟨?_, ?_⟩
        · intro s
          rw [hmap s, hfs]
          by_cases hs : s ∈ pre
          · simp [hs]
          · have : s ≠ r.SessionID := fun h => hs (h ▸ hmem)
            simp [hs, this]
        · rw [hfs]; exact hnext
      have hF1 : F = firstSeen ((pre ++ [r.SessionID]) ++ rest.map (fun r => r.SessionID)) := by
        rw [hF]; simp
      have hlen1 : (firstSeen (pre ++ [r.SessionID])).length + rest.length < 2 ^ 63 := by
        have hfs : firstSeen (pre ++ [r.SessionID]) = firstSeen pre := by
          rw [firstSeen_append]; simp [firstSeen, hmem]
        rw [hfs]; omega
      obtain ⟨out, hout, hrel⟩ := ih st (k + 1) (pre ++ [r.SessionID]) hinv1 hF1 hlen1
        (fun x hx => hsan x (List.mem_cons_of_mem _ hx))
      refine ⟨{ r with
          SeqSessionID := (firstSeen pre).indexOf r.SessionID + 1,
          DebugThisRecord := if dbg > 0 && rnd k < dbg then true else r.DebugThisRecord } :: out,
        ?_, List.Forall₂.cons ?_ hrel⟩
      · simp only [seqLoop, seqStep, hlook, hr, bne_self_eq_false, Bool.false_eq_true,
          if_false, hout]
      · have hidx : F.indexOf r.SessionID = (firstSeen pre).indexOf r.SessionID := by
          rw [hFa]
          exact List.indexOf_append_of_mem ((mem_firstSeen _ _).2 hmem)
        simp [SeqRel, hidx]
    · -- a new session id
      have hlook : st.sessionIDs r.SessionID = none := by
        rw [hmap]; simp [hmem]
      have hfs : firstSeen (pre ++ [r.SessionID]) = firstSeen pre ++ [r.SessionID] := by
        rw [firstSeen_append]; simp [firstSeen, hmem]
      have hnotfs : r.SessionID ∉ firstSeen pre := fun h => hmem ((mem_firstSeen _ _).1 h)
      have hinv1 : SeqInv
          { sessionIDs := fun s => if s = r.SessionID then some st.nextID else st.sessionIDs s,
            nextID := (st.nextID + 1) % 2 ^ 64 } (pre ++ [r.SessionID]) := by
        refine ⟨?_, ?_⟩
        · intro s
          simp only [hfs]
          by_cases hs : s = r.SessionID
          · subst hs
            simp [hnext, List.indexOf_append_of_not_mem hnotfs]
          · simp only [hs, if_false, hmap s, List.mem_append, List.mem_singleton, or_false]
            by_cases hsp : s ∈ pre
            · simp [hsp, List.indexOf_append_of_mem ((mem_firstSeen _ _).2 hsp)]
            · simp [hsp]
        · simp only [hfs, hnext, List.length_append, List.length_singleton]
          apply Nat.mod_eq_of_lt
          have : (2:Nat) ^ 63 < 2 ^ 64 := by norm_num
          omega
      have hF1 : F = firstSeen ((pre ++ [r.SessionID]) ++ rest.map (fun r => r.SessionID)) := by
        rw [hF]; simp
      have hlen1 : (firstSeen (pre ++ [r.SessionID])).length + rest.length < 2 ^ 63 := by
        rw [hfs]; simp only [List.length_append, List.length_singleton]; omega
      obtain ⟨out, hout, hrel⟩ := ih _ (k + 1) (pre ++ [r.SessionID]) hinv1 hF1 hlen1
        (fun x hx => hsan x (List.mem_cons_of_mem _ hx))
      refine ⟨{ r with
          SeqSessionID := st.nextID,
          DebugThisRecord := if dbg > 0 && rnd k < dbg then true else r.DebugThisRecord } :: out,
        ?_, List.Forall₂.cons ?_ hrel⟩
      · simp only [seqLoop, seqStep, hlook, hr, bne_self_eq_false, Bool.false_eq_true,
          if_false, hout]
      · have hidx : F.indexOf r.SessionID = (firstSeen pre).length := by
          rw [hFa, List.indexOf_append_of_not_mem hnotfs]
          simp [firstSeen, hmem]
        simp [SeqRel, hidx, hnext]

/-! ## Enrichment: marking the last record of each session -/

theorem markLast_cons_seen (r : EnrichedRecord) (rest : List EnrichedRecord)
    (h : (markLast rest).2 r.SessionID = true) :
    markLast (r :: rest) = (r :: (markLast rest).1, (markLast rest).2) := by
  simp only [markLast, h, if_true]

theorem markLast_cons_new (r : EnrichedRecord) (rest : List EnrichedRecord)
    (h : (markLast rest).2 r.SessionID = false) :
    markLast (r :: rest) =
      ({ r with LastRecordOfSession := true } :: (markLast rest).1,
        fun s => if s = r.SessionID then true else (markLast rest).2 s) := by
  simp only [markLast, h, Bool.false_eq_true, if_false]

theorem sessionsOf_cons (r : EnrichedRecord) (l : List EnrichedRecord) :
    sessionsOf (r :: l) = r.SessionID :: sessionsOf l := rfl

theorem markLast_set (s : String) :
    ∀ l : List EnrichedRecord, (markLast l).2 s = decide (s ∈ sessionsOf l)
  | [] => by simp [markLast, sessionsOf]
  | r :: rest => by
    have ih := markLast_set s rest
    have ihr := markLast_set r.SessionID rest
    rw [sessionsOf_cons]
    cases hin : (markLast rest).2 r.SessionID
    · rw [markLast_cons_new r rest hin]
      by_cases hs : s = r.SessionID
      · simp [hs]
      · simp [hs, ih]
    · rw [markLast_cons_seen r rest hin]
      rw [ihr] at hin
      have hin1 : r.SessionID ∈ sessionsOf rest := by simpa using hin
      by_cases hs : s = r.SessionID
      · subst hs; simp [hin1, ih]
      · simp [hs, ih]

theorem markLast_rel : ∀ l : List EnrichedRecord, List.Forall₂ MarkRel l (markLast l).1
  | [] => by simp [markLast]
  | r :: rest => by
    have ih := markLast_rel rest
    cases hin : (markLast rest).2 r.SessionID
    · rw [markLast_cons_new r rest hin]; exact List.Forall₂.cons rfl ih
    · rw [markLast_cons_seen r rest hin]; exact List.Forall₂.cons rfl ih

theorem markLast_sessionsOf : ∀ l : List EnrichedRecord, sessionsOf (markLast l).1 = sessionsOf l
  | [] => by simp [markLast]
  | r :: rest => by
    have ih := markLast_sessionsOf rest
    cases hin : (markLast rest).2 r.SessionID
    · rw [markLast_cons_new r rest hin]; simp only [sessionsOf_cons, ih]
    · rw [markLast_cons_seen r rest hin]; simp only [sessionsOf_cons, ih]

theorem mem_sessionsOf_iff (s : String) (l : List EnrichedRecord) :
    s ∈ sessionsOf l ↔ ∃ (j : Nat) (d : EnrichedRecord), l[j]? = some d ∧ d.SessionID = s := by
  unfold sessionsOf
  rw [List.mem_map]
  constructor
  · rintro ⟨d1, hd1, he⟩
    obtain ⟨j, hj⟩ := List.mem_iff_getElem?.1 hd1
    exact ⟨j, d1, hj, he⟩
  · rintro ⟨j, d1, hj, he⟩
    exact ⟨d1, List.mem_iff_getElem?.2 ⟨j, hj⟩, he⟩

theorem forall₂_getElem? {α β : Type} {R : α → β → Prop} {l₁ : List α} {l₂ : List β}
    (h : List.Forall₂ R l₁ l₂) :
    ∀ (i : Nat) (a : α) (b : β), l₁[i]? = some a → l₂[i]? = some b → R a b := by
  induction h with
  | nil => intro i a b ha; simp at ha
  | cons hab _ ih =>
    intro i a b ha hb
    cases i with
    | zero =>
      simp only [List.getElem?_cons_zero, Option.some.injEq] at ha hb
      subst ha; subst hb; exact hab
    | succ i =>
      simp only [List.getElem?_cons_succ] at ha hb
      exact ih i a b ha hb

/-- The count of marked records of a session after the backward loop. -/
theorem markLast_count (s : String) :
    ∀ l : List EnrichedRecord, (∀ r ∈ l, r.LastRecordOfSession = false) →
      ((markLast l).1.filter
          (fun d => decide (d.SessionID = s) && d.LastRecordOfSession)).length =
        if s ∈ sessionsOf l then 1 else 0
  | [], _ => by simp [markLast, sessionsOf]
  | r :: rest, h => by
    have ih := markLast_count s rest (fun x hx => h x (List.mem_cons_of_mem _ hx))
    have hr : r.LastRecordOfSession = false := h r (List.mem_cons_self _ _)
    have hset := markLast_set r.SessionID rest
    rw [sessionsOf_cons]
    cases hin : (markLast rest).2 r.SessionID
    · rw [markLast_cons_new r rest hin]
      have hin1 : ¬ r.SessionID ∈ sessionsOf rest := by rw [hset] at hin; simpa using hin
      simp only [List.filter_cons, Bool.and_true, List.mem_cons]
      by_cases hs : s = r.SessionID
      · subst hs
        simp only [decide_True, if_true, List.length_cons, ih, hin1, if_false, true_or]
      · have hs1 : ¬ r.SessionID = s := fun h => hs h.symm
        simp only [hs1, decide_False, Bool.false_eq_true, if_false, ih, hs, false_or]
    · rw [markLast_cons_seen r rest hin]
      have hin1 : r.SessionID ∈ sessionsOf rest := by rw [hset] at hin; simpa using hin
      simp only [List.filter_cons, hr, Bool.and_false, Bool.false_eq_true,
        if_false, ih, List.mem_cons]
      by_cases hs : s = r.SessionID
      · subst hs; simp [hin1]
      · simp [hs]

/-- After the backward loop a record is marked iff no later record bears its session id. -/
theorem markLast_iff :
    ∀ l : List EnrichedRecord, (∀ r ∈ l, r.LastRecordOfSession = false) →
      ∀ (i : Nat) (d : EnrichedRecord), (markLast l).1[i]? = some d →
        (d.LastRecordOfSession = true ↔
          ∀ (j : Nat) (d1 : EnrichedRecord), i < j → (markLast l).1[j]? = some d1 →
            d1.SessionID ≠ d.SessionID)
  | [], _ => by intro i d hd; simp [markLast] at hd
  | r :: rest, h => by
    intro i d hd
    have ih := markLast_iff rest (fun x hx => h x (List.mem_cons_of_mem _ hx))
    have hr : r.LastRecordOfSession = false := h r (List.mem_cons_self _ _)
    have hset := markLast_set r.SessionID rest
    have hmem := mem_sessionsOf_iff r.SessionID (markLast rest).1
    rw [markLast_sessionsOf] at hmem
    have hshift : ∀ (x : EnrichedRecord) (i : Nat) (d : EnrichedRecord),
        (markLast rest).1[i]? = some d →
        (d.LastRecordOfSession = true ↔
          ∀ (j : Nat) (d1 : EnrichedRecord), i + 1 < j → (x :: (markLast rest).1)[j]? = some d1 →
            d1.SessionID ≠ d.SessionID) := by
      intro x i d hd
      rw [ih i d hd]
      constructor
      · intro hall j d1 hij hj
        cases j with
        | zero => omega
        | succ j =>
          simp only [List.getElem?_cons_succ] at hj
          exact hall j d1 (by omega) hj
      · intro hall j d1 hij hj
        exact hall (j + 1) d1 (by omega) (by simpa using hj)
    cases hin : (markLast rest).2 r.SessionID
    · rw [markLast_cons_new r rest hin] at hd ⊢
      cases i with
      | zero =>
        simp only [List.getElem?_cons_zero, Option.some.injEq] at hd
        subst hd
        have hin1 : ¬ r.SessionID ∈ sessionsOf rest := by
          rw [hset] at hin; simpa using hin
        simp only [true_iff]
        intro j d1 hij hj he
        cases j with
        | zero => omega
        | succ j =>
          simp only [List.getElem?_cons_succ] at hj
          exact hin1 (hmem.2 ⟨j, d1, hj, he⟩)
      | succ i =>
        simp only [List.getElem?_cons_succ] at hd
        exact hshift _ i d hd
    · rw [markLast_cons_seen r rest hin] at hd ⊢
      cases i with
      | zero =>
        simp only [List.getElem?_cons_zero, Option.some.injEq] at hd
        subst hd
        have hin1 : r.SessionID ∈ sessionsOf rest := by
          rw [hset] at hin; simpa using hin
        obtain ⟨j, d1, hj, he⟩ := hmem.1 hin1
        simp only [hr, Bool.false_eq_true, false_iff, not_forall]
        exact ⟨j + 1, d1, Nat.succ_pos _, by simpa using hj, fun hne => hne he⟩
      | succ i =>
        simp only [List.getElem?_cons_succ] at hd
        exact hshift _ i d hd

/-! ## Enrichment: the two claims on `preprocessDeviceRecords` -/

/-- The forward loop returns whenever every record agrees with the sanitized mode; it keeps
the session id and the last-record flag of every record. -/
theorem seqLoop_total (san : Bool) (dbg : Rat) (rnd : Nat → Rat) :
    ∀ (rest : List EnrichedRecord) (st : SeqState) (k : Nat),
      (∀ r ∈ rest, r.Sanitized = san) →
      ∃ out, seqLoop san dbg rnd st k rest = some out ∧
        sessionsOf out = sessionsOf rest ∧
        (∀ d ∈ out, d.LastRecordOfSession = true → ∃ r ∈ rest, r.LastRecordOfSession = true)
  | [], _, _, _ => ⟨[], rfl, rfl, by simp⟩
  | r :: rest, st, k, hsan => by
    have hr : r.Sanitized = san := hsan r (List.mem_cons_self _ _)
    cases hst : seqStep san dbg (rnd k) st r with
    | none =>
      simp [seqStep, hr] at hst
    | some p =>
      obtain ⟨st1, r1⟩ := p
      obtain ⟨out, hout, hsid, hlast⟩ := seqLoop_total san dbg rnd rest st1 (k + 1)
        (fun x hx => hsan x (List.mem_cons_of_mem _ hx))
      have hr1 : r1.SessionID = r.SessionID ∧ r1.LastRecordOfSession = r.LastRecordOfSession := by
        simp only [seqStep, hr, bne_self_eq_false, Bool.false_eq_true, if_false,
          Option.some.injEq, Prod.mk.injEq] at hst
        rw [← hst.2]
        exact ⟨rfl, rfl⟩
      refine ⟨r1 :: out, ?_, ?_, ?_⟩
      · simp only [seqLoop, hst, hout]
      · simp only [sessionsOf_cons, hsid, hr1.1]
      · intro d hd hdl
        rcases List.mem_cons.1 hd with rfl | hd
        · exact ⟨r, List.mem_cons_self _ _, by rw [← hr1.2]; exact hdl⟩
        · obtain ⟨x, hx, hxl⟩ := hlast d hd hdl
          exact ⟨x, List.mem_cons_of_mem _ hx, hxl⟩

theorem seqInv_init : SeqInv { sessionIDs := fun _ => none, nextID := 1 } [] := by
  refine ⟨fun s => ?_, ?_⟩ <;> simp [firstSeen]

theorem sessionsOf_of_seqRel {F : List String} {l out : List EnrichedRecord}
    (h : List.Forall₂ (SeqRel F) l out) : sessionsOf out = sessionsOf l := by
  induction h with
  | nil => rfl
  | cons hab _ ih =>
    simp only [sessionsOf_cons, ih]
    rw [hab]

theorem getElem?_sessionsOf (l : List EnrichedRecord) (i : Nat) :
    (sessionsOf l)[i]? = (l[i]?).map (fun r => r.SessionID) := by
  simp [sessionsOf]

/-- C1. On a device list whose records all agree with the sanitized mode, enrichment gives
every record the 1-based rank of its SessionID among the distinct SessionIDs in first-seen
order; two records share SeqSessionID iff they share SessionID, and no record gets 0. -/
theorem C1_seqSessionID_is_first_seen_rank (e : evaluator) (rnd : Nat → Rat)
    (device : deviceRecords)
    (hsan : ∀ r ∈ device.Records, r.Sanitized = e.sanitizedInput)
    (hlen : device.Records.length < maxSliceLen) :
    ∃ out, preprocessDeviceRecords e rnd device = some out ∧
      out.Records.length = device.Records.length ∧
      (∀ (i : Nat) (r d : EnrichedRecord),
        device.Records[i]? = some r → out.Records[i]? = some d →
          d.SessionID = r.SessionID ∧
          (∃ k, (firstSeen (sessionsOf device.Records))[k]? = some r.SessionID ∧
            d.SeqSessionID = k + 1) ∧
          (∀ k, (firstSeen (sessionsOf device.Records))[k]? = some r.SessionID →
            d.SeqSessionID = k + 1) ∧
          d.SeqSessionID ≠ 0) ∧
      (∀ (i j : Nat) (di dj : EnrichedRecord),
        out.Records[i]? = some di → out.Records[j]? = some dj →
          (di.SeqSessionID = dj.SeqSessionID ↔ di.SessionID = dj.SessionID)) := by
  obtain ⟨out0, hout0, hrel0⟩ := seqLoop_spec e.sanitizedInput e.debugRecords rnd
    (firstSeen (sessionsOf device.Records)) device.Records
    { sessionIDs := fun _ => none, nextID := 1 } 0 [] seqInv_init (by simp [sessionsOf])
    (by simpa [firstSeen, maxSliceLen] using hlen) hsan
  have hmark := markLast_rel out0
  have hlen0 : out0.length = device.Records.length := hrel0.length_eq.symm
  have hlen1 : (markLast out0).1.length = out0.length := hmark.length_eq.symm
  have hnd := firstSeen_nodup (sessionsOf device.Records)
  -- every output record carries the rank of its session id
  have hrank : ∀ (i : Nat) (d : EnrichedRecord), (markLast out0).1[i]? = some d →
      d.SessionID ∈ firstSeen (sessionsOf device.Records) ∧
      d.SeqSessionID = (firstSeen (sessionsOf device.Records)).indexOf d.SessionID + 1 := by
    intro i d hd
    have hi : i < out0.length := by
      rw [← hlen1]; exact (List.getElem?_eq_some_iff.1 hd).1
    have hi0 : i < device.Records.length := by omega
    have h0 : out0[i]? = some out0[i] := List.getElem?_eq_getElem hi
    have hr : device.Records[i]? = some device.Records[i] := List.getElem?_eq_getElem hi0
    have h1 := forall₂_getElem? hrel0 i _ _ hr h0
    have h2 := forall₂_getElem? hmark i _ _ h0 hd
    unfold SeqRel at h1
    unfold MarkRel at h2
    have hsid : d.SessionID = device.Records[i].SessionID := by rw [h2, h1]
    have hseq : d.SeqSessionID =
        (firstSeen (sessionsOf device.Records)).indexOf device.Records[i].SessionID + 1 := by
      rw [h2, h1]
    refine ⟨?_, by rw [hseq, hsid]⟩
    rw [hsid, mem_firstSeen]
    exact List.mem_map.2 ⟨_, List.getElem_mem _, rfl⟩
  refine ⟨{ device with Records := (markLast out0).1 }, ?_, ?_, ?_, ?_⟩
  · simp only [preprocessDeviceRecords, hout0]
  · show (markLast out0).1.length = device.Records.length
    omega
  · intro i r d hr hd
    have hd1 : (markLast out0).1[i]? = some d := hd
    have hi : i < out0.length := by
      rw [← hlen1]; exact (List.getElem?_eq_some_iff.1 hd1).1
    have h0 : out0[i]? = some out0[i] := List.getElem?_eq_getElem hi
    have h1 := forall₂_getElem? hrel0 i _ _ hr h0
    have h2 := forall₂_getElem? hmark i _ _ h0 hd1
    unfold SeqRel at h1
    unfold MarkRel at h2
    have hsid : d.SessionID = r.SessionID := by rw [h2, h1]
    obtain ⟨hmem, hseq⟩ := hrank i d hd1
    rw [hsid] at hmem hseq
    refine ⟨hsid, ⟨_, by rw [← List.get?_eq_getElem?]; exact List.indexOf_get? hmem, hseq⟩,
      ?_, by omega⟩
    intro k hk
    obtain ⟨hk1, hk2⟩ := List.getElem?_eq_some_iff.1 hk
    rw [hseq, ← hk2, List.indexOf_getElem hnd]
  · intro i j di dj hi hj
    obtain ⟨hmi, hsi⟩ := hrank i di hi
    obtain ⟨hmj, hsj⟩ := hrank j dj hj
    rw [hsi, hsj]
    constructor
    · intro h
      exact (List.indexOf_inj hmi hmj).1 (by omega)
    · intro h
      rw [h]

/-- Instance of C1 on a device with records of the sessions `s1`, `s2`, `s1`: the ids
assigned are 1, 2, 1. -/
theorem C1_seqSessionID_is_first_seen_rank_witness :
    (∀ r ∈ sampleDevice.Records, r.Sanitized = (sampleEvaluator false []).sanitizedInput) ∧
    sampleDevice.Records.length < maxSliceLen ∧
    ∃ out, preprocessDeviceRecords (sampleEvaluator false []) (fun _ => 0) sampleDevice = some out ∧
      out.Records.length = sampleDevice.Records.length ∧
      out.Records.map (fun r => r.SeqSessionID) = [1, 2, 1] := by
  refine ⟨by decide, by decide, ?_⟩
  obtain ⟨out, h1, h2, _⟩ := C1_seqSessionID_is_first_seen_rank (sampleEvaluator false [])
    (fun _ => 0) sampleDevice (by decide) (by decide)
  refine ⟨out, h1, h2, ?_⟩
  have hval : (preprocessDeviceRecords (sampleEvaluator false []) (fun _ => 0) sampleDevice).map
      (fun d => d.Records.map (fun r => r.SeqSessionID)) = some [1, 2, 1] := by decide
  rw [h1] at hval
  exact Option.some.inj hval

/-- C2. On a device list loaded with no record marked, enrichment marks exactly one record of
every SessionID as last, and a record is marked iff no later record bears its SessionID. -/
theorem C2_lastRecordOfSession_once_at_greatest_index (e : evaluator) (rnd : Nat → Rat)
    (device : deviceRecords)
    (hload : ∀ r ∈ device.Records, r.LastRecordOfSession = false)
    (hsan : ∀ r ∈ device.Records, r.Sanitized = e.sanitizedInput) :
    ∃ out, preprocessDeviceRecords e rnd device = some out ∧
      sessionsOf out.Records = sessionsOf device.Records ∧
      (∀ s ∈ sessionsOf device.Records,
        (out.Records.filter
          (fun d => decide (d.SessionID = s) && d.LastRecordOfSession)).length = 1) ∧
      (∀ (i : Nat) (d : EnrichedRecord), out.Records[i]? = some d →
        (d.LastRecordOfSession = true ↔
          ∀ (j : Nat) (d1 : EnrichedRecord), i < j → out.Records[j]? = some d1 →
            d1.SessionID ≠ d.SessionID)) := by
  obtain ⟨out0, hout0, hsid0, hlast0⟩ := seqLoop_total e.sanitizedInput e.debugRecords rnd
    device.Records { sessionIDs := fun _ => none, nextID := 1 } 0 hsan
  have hunset : ∀ d ∈ out0, d.LastRecordOfSession = false := by
    intro d hd
    cases hdl : d.LastRecordOfSession with
    | false => rfl
    | true =>
      obtain ⟨r, hr, hrl⟩ := hlast0 d hd hdl
      rw [hload r hr] at hrl
      exact absurd hrl (by decide)
  refine ⟨{ device with Records := (markLast out0).1 }, ?_, ?_, ?_, ?_⟩
  · simp only [preprocessDeviceRecords, hout0]
  · show sessionsOf (markLast out0).1 = sessionsOf device.Records
    rw [markLast_sessionsOf, hsid0]
  · intro s hs
    show ((markLast out0).1.filter _).length = 1
    rw [markLast_count s out0 hunset, hsid0, if_pos hs]
  · intro i d hd
    exact markLast_iff out0 hunset i d hd

/-- Instance of C2 on a device with records of the sessions `s1`, `s2`, `s1`: the second
and the third record are marked. -/
theorem C2_lastRecordOfSession_once_at_greatest_index_witness :
    (∀ r ∈ sampleDevice.Records, r.LastRecordOfSession = false) ∧
    (∀ r ∈ sampleDevice.Records, r.Sanitized = (sampleEvaluator false []).sanitizedInput) ∧
    ∃ out, preprocessDeviceRecords (sampleEvaluator false []) (fun _ => 0) sampleDevice = some out ∧
      (∀ s ∈ sessionsOf sampleDevice.Records,
        (out.Records.filter
          (fun d => decide (d.SessionID = s) && d.LastRecordOfSession)).length = 1) ∧
      out.Records.map (fun r => r.LastRecordOfSession) = [false, true, true] := by
  refine ⟨by decide, by decide, ?_⟩
  obtain ⟨out, h1, _, h3, _⟩ := C2_lastRecordOfSession_once_at_greatest_index
    (sampleEvaluator false []) (fun _ => 0) sampleDevice (by decide) (by decide)
  refine ⟨out, h1, h3, ?_⟩
  have hval : (preprocessDeviceRecords (sampleEvaluator false []) (fun _ => 0) sampleDevice).map
      (fun d => d.Records.map (fun r => r.LastRecordOfSession)) = some [false, true, true] := by
    decide
  rw [h1] at hval
  exact Option.some.inj hval

/-! ## The scoring loop -/

theorem scanLen_nil (cmd : String) : scanLen cmd [] = 0 := by simp [scanLen]

theorem scanLen_cons_self (cmd : String) (rest : List String) :
    scanLen cmd (cmd :: rest) = 1 := by
  simp [scanLen]

theorem scanLen_cons_ne (cmd c : String) (rest : List String) (h : c ≠ cmd) :
    scanLen cmd (c :: rest) = scanLen cmd rest + 1 := by
  have h1 : ¬ cmd = c := fun e => h e.symm
  unfold scanLen
  by_cases hm : cmd ∈ rest
  · simp [hm, List.indexOf_cons_ne _ h]
  · simp [hm, h1]

theorem prefixAt_append (prefixLen : String → String → Nat) (cmd c : String)
    (pre rest : List String) :
    prefixAt prefixLen cmd (pre ++ c :: rest) pre.length = prefixLen c cmd := by
  have h : (pre ++ c :: rest)[pre.length]? = some c := by
    rw [List.getElem?_append_right (Nat.le_refl _)]
    simp
  simp [prefixAt, List.getD_eq_getElem?_getD, h]

/-- The test of the scoring loop is the test whether the candidate is improving. -/
theorem improving_iff (prefixLen : String → String → Nat) (cmd : String) (l : List String)
    (i longest : Nat)
    (hub : ∀ j, j < i → prefixAt prefixLen cmd l j ≤ longest)
    (hat : longest = 0 ∨ ∃ j, j < i ∧ prefixAt prefixLen cmd l j = longest) :
    improving prefixLen cmd l i = true ↔ prefixAt prefixLen cmd l i > longest := by
  simp only [improving, Bool.and_eq_true, decide_eq_true_eq]
  constructor
  · rintro ⟨hpos, hall⟩
    rcases hat with h0 | ⟨j, hj, hjl⟩
    · omega
    · have := hall j hj
      omega
  · intro h
    refine ⟨by omega, fun j hj => ?_⟩
    have := hub j hj
    omega

/-- Invariant of the scoring loop: `pre` are the candidates already looked at, none of them
equal to the command line, and `rest` the remaining ones. -/
theorem scanCandidates_spec (prefixLen : String → String → Nat) (record : EnrichedRecord)
    (l : List String) :
    ∀ (rest pre : List String) (st : ScanState), l = pre ++ rest → record.CmdLine ∉ pre →
      (∀ j, j < pre.length → prefixAt prefixLen record.CmdLine l j ≤ st.longestPrefixMatchLength) →
      (st.longestPrefixMatchLength = 0 ∨
        ∃ j, j < pre.length ∧ prefixAt prefixLen record.CmdLine l j = st.longestPrefixMatchLength) →
      (scanCandidates prefixLen record pre.length rest st).multiMatch.Entries =
          st.multiMatch.Entries ++
            ((List.range' pre.length (scanLen record.CmdLine rest)).filter
              (improving prefixLen record.CmdLine l)).map (entryAt prefixLen record.CmdLine l) ∧
      ((scanCandidates prefixLen record pre.length rest st).multiMatch.Match =
          (st.multiMatch.Match ||
            !(((List.range' pre.length (scanLen record.CmdLine rest)).filter
              (improving prefixLen record.CmdLine l)).isEmpty))) ∧
      ((scanCandidates prefixLen record pre.length rest st).matchFound =
          (st.matchFound || decide (record.CmdLine ∈ rest))) ∧
      ((scanCandidates prefixLen record pre.length rest st).strategyData =
          if record.CmdLine ∈ rest then
            { st.strategyData with
              Matches := st.strategyData.Matches ++
                [{ Match := true, Distance := ((pre.length + rest.indexOf record.CmdLine : Nat) : Int) + 1,
                   CharsRecalled := record.CmdLength }]
              PrefixMatches := st.strategyData.PrefixMatches ++
                [(scanCandidates prefixLen record pre.length rest st).multiMatch] }
          else st.strategyData) := by
  intro rest
  induction rest with
  | nil =>
    intro pre st _ _ _ _
    simp [scanCandidates, scanLen_nil]
  | cons c rest ih =>
    intro pre st hl hno hub hat
    have hq : prefixAt prefixLen record.CmdLine l pre.length = prefixLen c record.CmdLine := by
      rw [hl]; exact prefixAt_append _ _ _ _ _
    have himp := improving_iff prefixLen record.CmdLine l pre.length
      st.longestPrefixMatchLength hub hat
    rw [hq] at himp
    by_cases hc : c = record.CmdLine
    · -- exact match: the loop breaks
      subst hc
      rw [scanLen_cons_self]
      by_cases hgt : prefixLen record.CmdLine record.CmdLine > st.longestPrefixMatchLength
      · have hi : improving prefixLen record.CmdLine l pre.length = true := himp.2 hgt
        simp [scanCandidates, hgt, List.range', hi, entryAt, hq]
      · have hi : improving prefixLen record.CmdLine l pre.length = false := by
          cases h : improving prefixLen record.CmdLine l pre.length with
          | false => rfl
          | true => exact absurd (himp.1 h) hgt
        simp [scanCandidates, hgt, List.range', hi]
    · -- no match: the loop goes on with the next candidate
      have hc1 : ¬ record.CmdLine = c := fun e => hc e.symm
      rw [scanLen_cons_ne _ _ _ hc]
      have hl1 : l = (pre ++ [c]) ++ rest := by rw [hl]; simp
      have hno1 : record.CmdLine ∉ pre ++ [c] := by simp [hno, hc1]
      have hlen1 : (pre ++ [c]).length = pre.length + 1 := by simp
      have hrange : List.range' pre.length (scanLen record.CmdLine rest + 1) =
          pre.length :: List.range' (pre.length + 1) (scanLen record.CmdLine rest) := by
        simp [List.range'_succ]
      have hidx : (c :: rest).indexOf record.CmdLine = rest.indexOf record.CmdLine + 1 :=
        List.indexOf_cons_ne _ hc
      have hmem : record.CmdLine ∈ c :: rest ↔ record.CmdLine ∈ rest := by simp [hc1]
      by_cases hgt : prefixLen c record.CmdLine > st.longestPrefixMatchLength
      · have hi : improving prefixLen record.CmdLine l pre.length = true := himp.2 hgt
        have hub1 : ∀ j, j < (pre ++ [c]).length →
            prefixAt prefixLen record.CmdLine l j ≤ prefixLen c record.CmdLine := by
          intro j hj
          rw [hlen1] at hj
          by_cases hjl : j < pre.length
          · have := hub j hjl; omega
          · have : j = pre.length := by omega
            rw [this, hq]
        have hat1 : prefixLen c record.CmdLine = 0 ∨ ∃ j, j < (pre ++ [c]).length ∧
            prefixAt prefixLen record.CmdLine l j = prefixLen c record.CmdLine :=
          Or.inr ⟨pre.length, by rw [hlen1]; omega, hq⟩
        have h := ih (pre ++ [c])
          { st with
            longestPrefixMatchLength := prefixLen c record.CmdLine
            multiMatch :=
              { Match := true
                Entries := st.multiMatch.Entries ++
                  [{ Distance := (pre.length : Int) + 1,
                     CharsRecalled := (prefixLen c record.CmdLine : Int) }] } }
          hl1 hno1 hub1 hat1
        rw [hlen1] at h
        obtain ⟨h1, h2, h3, h4⟩ := h
        simp only [scanCandidates, hgt, if_true, hc, if_false]
        refine ⟨?_, ?_, ?_, ?_⟩
        · rw [h1, hrange]
          simp [List.filter_cons, hi, entryAt, hq]
        · rw [h2, hrange]
          simp [List.filter_cons, hi]
        · rw [h3]; simp [hc1]
        · rw [h4, hidx]
          simp only [hmem]
          split
          · simp; omega
          · rfl
      · have hi : improving prefixLen record.CmdLine l pre.length = false := by
          cases h : improving prefixLen record.CmdLine l pre.length with
          | false => rfl
          | true => exact absurd (himp.1 h) hgt
        have hub1 : ∀ j, j < (pre ++ [c]).length →
            prefixAt prefixLen record.CmdLine l j ≤ st.longestPrefixMatchLength := by
          intro j hj
          rw [hlen1] at hj
          by_cases hjl : j < pre.length
          · exact hub j hjl
          · have : j = pre.length := by omega
            rw [this, hq]; omega
        have hat1 : st.longestPrefixMatchLength = 0 ∨ ∃ j, j < (pre ++ [c]).length ∧
            prefixAt prefixLen record.CmdLine l j = st.longestPrefixMatchLength := by
          rcases hat with h0 | ⟨j, hj, hjl⟩
          · exact Or.inl h0
          · exact Or.inr ⟨j, by rw [hlen1]; omega, hjl⟩
        have h := ih (pre ++ [c]) st hl1 hno1 hub1 hat1
        rw [hlen1] at h
        obtain ⟨h1, h2, h3, h4⟩ := h
        simp only [scanCandidates, hgt, if_false, hc]
        refine ⟨?_, ?_, ?_, ?_⟩
        · rw [h1, hrange]
          simp [List.filter_cons, hi]
        · rw [h2, hrange]
          simp [List.filter_cons, hi]
        · rw [h3]; simp [hc1]
        · rw [h4, hidx]
          simp only [hmem]
          split
          · simp; omega
          · rfl

/-- What `scoreRecord` appends to the two result sequences. -/
theorem scoreRecord_spec (prefixLen : String → String → Nat) (record : EnrichedRecord)
    (candidates : List String) (sd : strategyJSON) :
    scoreRecord prefixLen record candidates sd =
      { sd with
        Matches := sd.Matches ++ [expectedMatch record candidates]
        PrefixMatches := sd.PrefixMatches ++ [expectedMultiMatch prefixLen record candidates] } := by
  obtain ⟨h1, h2, h3, h4⟩ := scanCandidates_spec prefixLen record candidates candidates []
    { matchFound := false, longestPrefixMatchLength := 0,
      multiMatch := { Match := false, Entries := [] }, strategyData := sd }
    rfl (by simp) (by intro j hj; simp at hj) (Or.inl rfl)
  simp only [List.length_nil, List.nil_append, Bool.false_or, Nat.zero_add,
    ← List.range_eq_range'] at h1 h2 h3 h4
  have hmm : (scanCandidates prefixLen record 0 candidates
      { matchFound := false, longestPrefixMatchLength := 0,
        multiMatch := { Match := false, Entries := [] }, strategyData := sd }).multiMatch =
      expectedMultiMatch prefixLen record candidates := by
    cases hx : (scanCandidates prefixLen record 0 candidates
      { matchFound := false, longestPrefixMatchLength := 0,
        multiMatch := { Match := false, Entries := [] }, strategyData := sd }).multiMatch with
    | mk m es =>
      rw [hx] at h1 h2
      simp only at h1 h2
      simp only [expectedMultiMatch, improvingEntries, multiMatchJSON.mk.injEq, h1, h2,
        and_true]
      cases (List.filter (improving prefixLen record.CmdLine candidates)
        (List.range (scanLen record.CmdLine candidates))) <;> rfl
  unfold scoreRecord
  simp only [h3, h4, hmm]
  by_cases hm : record.CmdLine ∈ candidates
  · simp [hm, expectedMatch]
  · simp [hm, expectedMatch]

theorem evalRecord_of_skipped {σ : Type} (Stripped : EnrichedRecord → EnrichedRecord)
    (prefixLen : String → String → Nat) (e : evaluator) (strategy : IStrategy σ)
    (st : strategyJSON × σ) (record : EnrichedRecord) (h : skipped e record = true) :
    evalRecord Stripped prefixLen e strategy st record = (st, none) := by
  simp [evalRecord, h]

theorem evalRecord_of_not_skipped {σ : Type} (Stripped : EnrichedRecord → EnrichedRecord)
    (prefixLen : String → String → Nat) (e : evaluator) (strategy : IStrategy σ)
    (st : strategyJSON × σ) (record : EnrichedRecord) (h : skipped e record = false) :
    evalRecord Stripped prefixLen e strategy st record =
      ((scoreRecord prefixLen record (strategy.GetCandidates st.2 (Stripped record)).1 st.1,
        (strategy.AddHistoryRecord (strategy.GetCandidates st.2 (Stripped record)).2 record).2),
       (strategy.AddHistoryRecord (strategy.GetCandidates st.2 (Stripped record)).2 record).1) := by
  simp [evalRecord, h]

theorem improvingEntries_pairwise (prefixLen : String → String → Nat) (cmd : String)
    (candidates : List String) :
    (improvingEntries prefixLen cmd candidates).Pairwise
      (fun a b => a.Distance < b.Distance ∧ a.CharsRecalled < b.CharsRecalled) := by
  unfold improvingEntries
  rw [List.pairwise_map]
  have h := (List.pairwise_lt_range (scanLen cmd candidates)).filter
    (improving prefixLen cmd candidates)
  refine h.imp_of_mem ?_
  intro a b _ hb hab
  have hb1 : improving prefixLen cmd candidates b = true := (List.mem_filter.1 hb).2
  simp only [improving, Bool.and_eq_true, decide_eq_true_eq] at hb1
  have := hb1.2 a hab
  simp only [entryAt]
  omega

theorem indexOf_eq_of_first {a : String} :
    ∀ (l : List String) (i : Nat), l[i]? = some a → (∀ j, j < i → l[j]? ≠ some a) →
      l.indexOf a = i
  | [], i, h, _ => by simp at h
  | c :: l, 0, h, _ => by
    simp only [List.getElem?_cons_zero, Option.some.injEq] at h
    rw [h]; exact List.indexOf_cons_self _ _
  | c :: l, i + 1, h, hmin => by
    have hc : c ≠ a := by
      intro e
      exact hmin 0 (Nat.succ_pos _) (by simp [e])
    rw [List.indexOf_cons_ne _ hc]
    simp only [List.getElem?_cons_succ] at h
    have := indexOf_eq_of_first l i h (fun j hj => by
      have := hmin (j + 1) (by omega)
      simpa using this)
    omega

/-- C3. For a record that is not skipped, `evaluate` appends exactly one entry to Matches:
a match at the 1-based rank of the first candidate equal to CmdLine, recalling CmdLength
characters, or the zero entry when no candidate equals CmdLine. -/
theorem C3_evaluate_appends_exact_match_entry {σ : Type}
    (Stripped : EnrichedRecord → EnrichedRecord) (prefixLen : String → String → Nat)
    (e : evaluator) (strategy : IStrategy σ) (sd : strategyJSON) (s : σ)
    (record : EnrichedRecord) (hskip : skipped e record = false) :
    ∃ entry : matchJSON,
      (evalRecord Stripped prefixLen e strategy (sd, s) record).1.1.Matches =
        sd.Matches ++ [entry] ∧
      (∀ i : Nat, (strategy.GetCandidates s (Stripped record)).1[i]? = some record.CmdLine →
        (∀ j, j < i → (strategy.GetCandidates s (Stripped record)).1[j]? ≠ some record.CmdLine) →
        entry = { Match := true, Distance := (i : Int) + 1, CharsRecalled := record.CmdLength }) ∧
      (record.CmdLine ∉ (strategy.GetCandidates s (Stripped record)).1 →
        entry = { Match := false, Distance := 0, CharsRecalled := 0 }) := by
  refine ⟨expectedMatch record (strategy.GetCandidates s (Stripped record)).1, ?_, ?_, ?_⟩
  · rw [evalRecord_of_not_skipped _ _ _ _ _ _ hskip, scoreRecord_spec]
  · intro i hi hmin
    have hmem : record.CmdLine ∈ (strategy.GetCandidates s (Stripped record)).1 :=
      List.mem_iff_getElem?.2 ⟨i, hi⟩
    simp [expectedMatch, hmem, indexOf_eq_of_first _ i hi hmin]
  · intro hmem
    simp [expectedMatch, hmem]

/-- Instance of C3 at the command line "git status" with the candidates of the
specification. -/
theorem C3_evaluate_appends_exact_match_entry_witness :
    skipped (sampleEvaluator false []) (sampleRecord "s1" "git status" 0) = false ∧
    (evalRecord (fun r => r) longestcommonPrefixLen (sampleEvaluator false [])
        (fixedStrategy ["git status", "ls"]) (emptyStrategyData, ())
        (sampleRecord "s1" "git status" 0)).1.1.Matches =
      [{ Match := true, Distance := 1, CharsRecalled := 10 }] ∧
    (evalRecord (fun r => r) longestcommonPrefixLen (sampleEvaluator false [])
        (fixedStrategy ["git s", "ls"]) (emptyStrategyData, ())
        (sampleRecord "s1" "git status" 0)).1.1.Matches =
      [{ Match := false, Distance := 0, CharsRecalled := 0 }] := by
  refine ⟨by decide, ?_, ?_⟩
  · obtain ⟨entry, happ, hfirst, _⟩ := C3_evaluate_appends_exact_match_entry (fun r => r)
      longestcommonPrefixLen (sampleEvaluator false []) (fixedStrategy ["git status", "ls"])
      emptyStrategyData () (sampleRecord "s1" "git status" 0) (by decide)
    rw [happ, hfirst 0 (by decide) (fun j hj => absurd hj (Nat.not_lt_zero j))]
    decide
  · obtain ⟨entry, happ, _, hnone⟩ := C3_evaluate_appends_exact_match_entry (fun r => r)
      longestcommonPrefixLen (sampleEvaluator false []) (fixedStrategy ["git s", "ls"])
      emptyStrategyData () (sampleRecord "s1" "git status" 0) (by decide)
    rw [happ, hnone (by decide)]
    decide

/-- C4. For a record that is not skipped, `evaluate` appends exactly one entry to
PrefixMatches; its Entries are, in scan order, the entries (rank, common-prefix length) of the
improving candidates among those scanned, so that rank and length both increase strictly
along Entries, and Match holds iff Entries is non-empty. -/
theorem C4_evaluate_appends_prefix_match_entry {σ : Type}
    (Stripped : EnrichedRecord → EnrichedRecord) (prefixLen : String → String → Nat)
    (e : evaluator) (strategy : IStrategy σ) (sd : strategyJSON) (s : σ)
    (record : EnrichedRecord) (hskip : skipped e record = false) :
    ∃ mm : multiMatchJSON,
      (evalRecord Stripped prefixLen e strategy (sd, s) record).1.1.PrefixMatches =
        sd.PrefixMatches ++ [mm] ∧
      mm.Entries =
        improvingEntries prefixLen record.CmdLine (strategy.GetCandidates s (Stripped record)).1 ∧
      mm.Entries.Pairwise
        (fun a b => a.Distance < b.Distance ∧ a.CharsRecalled < b.CharsRecalled) ∧
      (mm.Match = true ↔ mm.Entries ≠ []) := by
  refine ⟨expectedMultiMatch prefixLen record (strategy.GetCandidates s (Stripped record)).1,
    ?_, rfl, improvingEntries_pairwise _ _ _, ?_⟩
  · rw [evalRecord_of_not_skipped _ _ _ _ _ _ hskip, scoreRecord_spec]
  · simp only [expectedMultiMatch]
    cases improvingEntries prefixLen record.CmdLine
      (strategy.GetCandidates s (Stripped record)).1 <;> simp

/-- Instance of C4 at the command line "git status" with the candidates "git s" and "ls". -/
theorem C4_evaluate_appends_prefix_match_entry_witness :
    skipped (sampleEvaluator false []) (sampleRecord "s1" "git status" 0) = false ∧
    (evalRecord (fun r => r) longestcommonPrefixLen (sampleEvaluator false [])
        (fixedStrategy ["git s", "ls"]) (emptyStrategyData, ())
        (sampleRecord "s1" "git status" 0)).1.1.PrefixMatches =
      [{ Match := true, Entries := [{ Distance := 1, CharsRecalled := 5 }] }] := by
  refine ⟨by decide, ?_⟩
  obtain ⟨mm, happ, hent, _, hmatch⟩ := C4_evaluate_appends_prefix_match_entry (fun r => r)
    longestcommonPrefixLen (sampleEvaluator false []) (fixedStrategy ["git s", "ls"])
    emptyStrategyData () (sampleRecord "s1" "git status" 0) (by decide)
  have hent1 : mm.Entries = [{ Distance := 1, CharsRecalled := 5 }] := by
    rw [hent]; decide
  have hm : mm.Match = true := hmatch.2 (by rw [hent1]; simp)
  rw [happ]
  cases mm with
  | mk m es =>
    simp only at hent1 hm
    rw [hent1, hm]
    rfl

/-! ## The loops of `evaluate` -/

theorem growsBy_nil (e : evaluator) (sd : strategyJSON) : GrowsBy e [] sd sd := by
  simp [GrowsBy]

theorem GrowsBy.append {e : evaluator} {rs1 rs2 : List EnrichedRecord}
    {sd sd1 sd2 : strategyJSON} (h1 : GrowsBy e rs1 sd sd1) (h2 : GrowsBy e rs2 sd1 sd2) :
    GrowsBy e (rs1 ++ rs2) sd sd2 := by
  obtain ⟨a1, b1, c1, d1⟩ := h1
  obtain ⟨a2, b2, c2, d2⟩ := h2
  refine ⟨a2.trans a1, b2.trans b1, ?_, ?_⟩
  · rw [c2, c1, List.filter_append, List.length_append]; omega
  · rw [d2, d1, List.filter_append, List.length_append]; omega

theorem evalRecord_growsBy {σ : Type} (Stripped : EnrichedRecord → EnrichedRecord)
    (prefixLen : String → String → Nat) (e : evaluator) (strategy : IStrategy σ)
    (sd : strategyJSON) (s : σ) (record : EnrichedRecord) :
    GrowsBy e [record] sd (evalRecord Stripped prefixLen e strategy (sd, s) record).1.1 := by
  cases h : skipped e record with
  | true =>
    rw [evalRecord_of_skipped _ _ _ _ _ _ h]
    simp [GrowsBy, h]
  | false =>
    rw [evalRecord_of_not_skipped _ _ _ _ _ _ h, scoreRecord_spec]
    simp [GrowsBy, h]

theorem evalRecord_noError {σ : Type} (Stripped : EnrichedRecord → EnrichedRecord)
    (prefixLen : String → String → Nat) (e : evaluator) (strategy : IStrategy σ)
    (hok : ∀ s r, (strategy.AddHistoryRecord s r).1 = none)
    (st : strategyJSON × σ) (record : EnrichedRecord) :
    (evalRecord Stripped prefixLen e strategy st record).2 = none := by
  cases h : skipped e record with
  | true => rw [evalRecord_of_skipped _ _ _ _ _ _ h]
  | false => rw [evalRecord_of_not_skipped _ _ _ _ _ _ h]; exact hok _ _

theorem evalRecords_ok {σ : Type} (Stripped : EnrichedRecord → EnrichedRecord)
    (prefixLen : String → String → Nat) (e : evaluator) (strategy : IStrategy σ)
    (hok : ∀ s r, (strategy.AddHistoryRecord s r).1 = none) :
    ∀ (rs : List EnrichedRecord) (sd : strategyJSON) (s : σ),
      (evalRecords Stripped prefixLen e strategy rs (sd, s)).2 = none ∧
      GrowsBy e rs sd (evalRecords Stripped prefixLen e strategy rs (sd, s)).1.1
  | [], sd, s => ⟨rfl, growsBy_nil e sd⟩
  | r :: rs, sd, s => by
    have herr := evalRecord_noError Stripped prefixLen e strategy hok (sd, s) r
    have hg := evalRecord_growsBy Stripped prefixLen e strategy sd s r
    cases hx : evalRecord Stripped prefixLen e strategy (sd, s) r with
    | mk st1 err =>
      rw [hx] at herr hg
      simp only at herr
      subst herr
      obtain ⟨sd1, s1⟩ := st1
      obtain ⟨h1, h2⟩ := evalRecords_ok Stripped prefixLen e strategy hok rs sd1 s1
      simp only [evalRecords, hx]
      have happ : GrowsBy e ([r] ++ rs) sd _ := GrowsBy.append hg h2
      exact ⟨h1, happ⟩

theorem evalDevice_ok {σ : Type} (Stripped : EnrichedRecord → EnrichedRecord)
    (prefixLen : String → String → Nat) (e : evaluator) (strategy : IStrategy σ)
    (hok : ∀ s r, (strategy.AddHistoryRecord s r).1 = none)
    (d : deviceRecords) (sd : strategyJSON) (s : σ) :
    (evalDevice Stripped prefixLen e strategy (sd, s) d).2 = none ∧
    GrowsBy e d.Records sd (evalDevice Stripped prefixLen e strategy (sd, s) d).1.1 := by
  obtain ⟨h1, h2⟩ := evalRecords_ok Stripped prefixLen e strategy hok d.Records sd s
  cases hx : evalRecords Stripped prefixLen e strategy d.Records (sd, s) with
  | mk st1 err =>
    rw [hx] at h1 h2
    simp only at h1
    subst h1
    obtain ⟨sd1, s1⟩ := st1
    simp only [evalDevice, hx]
    exact ⟨trivial, h2⟩

theorem evalDevices_ok {σ : Type} (Stripped : EnrichedRecord → EnrichedRecord)
    (prefixLen : String → String → Nat) (e : evaluator) (strategy : IStrategy σ)
    (hok : ∀ s r, (strategy.AddHistoryRecord s r).1 = none) :
    ∀ (ds : List deviceRecords) (sd : strategyJSON) (s : σ),
      (evalDevices Stripped prefixLen e strategy ds (sd, s)).2 = none ∧
      GrowsBy e (ds.flatMap (fun d => d.Records)) sd
        (evalDevices Stripped prefixLen e strategy ds (sd, s)).1.1
  | [], sd, s => ⟨rfl, growsBy_nil e sd⟩
  | d :: ds, sd, s => by
    obtain ⟨h1, h2⟩ := evalDevice_ok Stripped prefixLen e strategy hok d sd s
    cases hx : evalDevice Stripped prefixLen e strategy (sd, s) d with
    | mk st1 err =>
      rw [hx] at h1 h2
      simp only at h1
      subst h1
      obtain ⟨sd1, s1⟩ := st1
      obtain ⟨h3, h4⟩ := evalDevices_ok Stripped prefixLen e strategy hok ds sd1 s1
      simp only [evalDevices, hx, List.flatMap_cons]
      exact ⟨h3, GrowsBy.append h2 h4⟩

theorem evalUsers_ok {σ : Type} (Stripped : EnrichedRecord → EnrichedRecord)
    (prefixLen : String → String → Nat) (e : evaluator) (strategy : IStrategy σ)
    (hok : ∀ s r, (strategy.AddHistoryRecord s r).1 = none) :
    ∀ (us : List userRecords) (sd : strategyJSON) (s : σ),
      (evalUsers Stripped prefixLen e strategy us (sd, s)).2 = none ∧
      GrowsBy e (us.flatMap (fun u => u.Devices.flatMap (fun d => d.Records))) sd
        (evalUsers Stripped prefixLen e strategy us (sd, s)).1.1
  | [], sd, s => ⟨rfl, growsBy_nil e sd⟩
  | u :: us, sd, s => by
    obtain ⟨h1, h2⟩ := evalDevices_ok Stripped prefixLen e strategy hok u.Devices sd s
    cases hx : evalDevices Stripped prefixLen e strategy u.Devices (sd, s) with
    | mk st1 err =>
      rw [hx] at h1 h2
      simp only at h1
      subst h1
      obtain ⟨sd1, s1⟩ := st1
      obtain ⟨h3, h4⟩ := evalUsers_ok Stripped prefixLen e strategy hok us sd1 s1
      simp only [evalUsers, hx, List.flatMap_cons]
      exact ⟨h3, GrowsBy.append h2 h4⟩

/-- C5. When the strategy returns no error, `evaluate` appends one strategyJSON whose Matches
and PrefixMatches both have as many entries as there are records that are not skipped: all
records without skipFailedCmds, those with ExitCode 0 with it; a skipped record leaves both
sequences as they are. -/
theorem C5_evaluate_result_lengths {σ : Type}
    (Stripped : EnrichedRecord → EnrichedRecord) (prefixLen : String → String → Nat)
    (e : evaluator) (strategy : IStrategy σ) (s : σ)
    (hok : ∀ s r, (strategy.AddHistoryRecord s r).1 = none) :
    ∃ (sd : strategyJSON) (s1 : σ),
      evaluate Stripped prefixLen e strategy s =
        (none, { e with Strategies := e.Strategies ++ [sd] }, s1) ∧
      sd.Matches.length = (evaluatedRecords e).length ∧
      sd.PrefixMatches.length = (evaluatedRecords e).length ∧
      (e.skipFailedCmds = false → evaluatedRecords e = allRecords e) ∧
      (e.skipFailedCmds = true →
        evaluatedRecords e = (allRecords e).filter (fun r => decide (r.ExitCode = 0))) ∧
      (∀ (st : strategyJSON × σ) (r : EnrichedRecord),
        e.skipFailedCmds = true → r.ExitCode ≠ 0 →
          evalRecord Stripped prefixLen e strategy st r = (st, none)) := by
  obtain ⟨h1, h2⟩ := evalUsers_ok Stripped prefixLen e strategy hok e.UsersRecords
    { Title := (strategy.GetTitleAndDescription s).1.1,
      Description := (strategy.GetTitleAndDescription s).1.2,
      Matches := [], PrefixMatches := [] }
    (strategy.GetTitleAndDescription s).2
  cases hx : evalUsers Stripped prefixLen e strategy e.UsersRecords
    ({ Title := (strategy.GetTitleAndDescription s).1.1,
       Description := (strategy.GetTitleAndDescription s).1.2,
       Matches := [], PrefixMatches := [] },
     (strategy.GetTitleAndDescription s).2) with
  | mk st1 err =>
    rw [hx] at h1 h2
    simp only at h1
    subst h1
    obtain ⟨sd1, s1⟩ := st1
    obtain ⟨_, _, hm, hp⟩ := h2
    refine ⟨sd1, s1, ?_, ?_, ?_, ?_, ?_, ?_⟩
    · simp only [evaluate, hx]
    · simpa [evaluatedRecords, allRecords] using hm
    · simpa [evaluatedRecords, allRecords] using hp
    · intro hs
      simp [evaluatedRecords, skipped, hs]
    · intro hs
      simp only [evaluatedRecords, skipped, hs, Bool.true_and]
      apply List.filter_congr
      intro r _
      by_cases hr : r.ExitCode = 0 <;> simp [hr]
    · intro st r hs hr
      exact evalRecord_of_skipped _ _ _ _ _ _ (by simp [skipped, hs, hr])

/-- Instance of C5 on a device with three records, one of which failed and is skipped. -/
theorem C5_evaluate_result_lengths_witness :
    (∀ s r, ((fixedStrategy ["ls"]).AddHistoryRecord s r).1 = none) ∧
    ∃ (sd : strategyJSON) (s1 : Unit),
      evaluate (fun r => r) longestcommonPrefixLen (sampleEvaluator true sampleUsers)
          (fixedStrategy ["ls"]) () =
        (none, { sampleEvaluator true sampleUsers with
                 Strategies := (sampleEvaluator true sampleUsers).Strategies ++ [sd] }, s1) ∧
      sd.Matches.length = 2 ∧ sd.PrefixMatches.length = 2 := by
  refine ⟨fun _ _ => rfl, ?_⟩
  obtain ⟨sd, s1, h1, h2, h3, _⟩ := C5_evaluate_result_lengths (fun r => r)
    longestcommonPrefixLen (sampleEvaluator true sampleUsers) (fixedStrategy ["ls"]) ()
    (fun _ _ => rfl)
  exact ⟨sd, s1, h1, by rw [h2]; decide, by rw [h3]; decide⟩

/-! ## The strategy calls made by `evaluate` -/

theorem traced_noError {σ : Type} (strategy : IStrategy σ)
    (hok : ∀ s r, (strategy.AddHistoryRecord s r).1 = none) :
    ∀ s r, ((traced strategy).AddHistoryRecord s r).1 = none :=
  fun s r => hok s.1 r

theorem evalRecord_log {σ : Type} (Stripped : EnrichedRecord → EnrichedRecord)
    (prefixLen : String → String → Nat) (e : evaluator) (strategy : IStrategy σ)
    (st : strategyJSON × σ × List Call) (r : EnrichedRecord) :
    (evalRecord Stripped prefixLen e (traced strategy) st r).1.2.2 =
      st.2.2 ++ recordCalls Stripped e r := by
  cases h : skipped e r with
  | true => rw [evalRecord_of_skipped _ _ _ _ _ _ h]; simp [recordCalls, h]
  | false => rw [evalRecord_of_not_skipped _ _ _ _ _ _ h]; simp [recordCalls, h, traced]

theorem evalRecords_log {σ : Type} (Stripped : EnrichedRecord → EnrichedRecord)
    (prefixLen : String → String → Nat) (e : evaluator) (strategy : IStrategy σ)
    (hok : ∀ s r, (strategy.AddHistoryRecord s r).1 = none) :
    ∀ (rs : List EnrichedRecord) (st : strategyJSON × σ × List Call),
      (evalRecords Stripped prefixLen e (traced strategy) rs st).2 = none ∧
      (evalRecords Stripped prefixLen e (traced strategy) rs st).1.2.2 =
        st.2.2 ++ rs.flatMap (recordCalls Stripped e)
  | [], st => by simp [evalRecords]
  | r :: rs, st => by
    have herr := evalRecord_noError Stripped prefixLen e (traced strategy)
      (traced_noError strategy hok) st r
    have hlog := evalRecord_log Stripped prefixLen e strategy st r
    cases hx : evalRecord Stripped prefixLen e (traced strategy) st r with
    | mk st1 err =>
      rw [hx] at herr hlog
      simp only at herr hlog
      subst herr
      obtain ⟨h1, h2⟩ := evalRecords_log Stripped prefixLen e strategy hok rs st1
      simp only [evalRecords, hx, List.flatMap_cons]
      exact ⟨h1, by rw [h2, hlog, List.append_assoc]⟩

theorem evalDevice_log {σ : Type} (Stripped : EnrichedRecord → EnrichedRecord)
    (prefixLen : String → String → Nat) (e : evaluator) (strategy : IStrategy σ)
    (hok : ∀ s r, (strategy.AddHistoryRecord s r).1 = none)
    (d : deviceRecords) (st : strategyJSON × σ × List Call) :
    (evalDevice Stripped prefixLen e (traced strategy) st d).2 = none ∧
    (evalDevice Stripped prefixLen e (traced strategy) st d).1.2.2 =
      st.2.2 ++ deviceCalls Stripped e d := by
  obtain ⟨h1, h2⟩ := evalRecords_log Stripped prefixLen e strategy hok d.Records st
  cases hx : evalRecords Stripped prefixLen e (traced strategy) d.Records st with
  | mk st1 err =>
    rw [hx] at h1 h2
    simp only at h1 h2
    subst h1
    obtain ⟨sd1, s1⟩ := st1
    simp only [evalDevice, hx, deviceCalls, true_and]
    show s1.2 ++ [Call.ResetHistory] = _
    rw [h2, List.append_assoc]

theorem evalDevices_log {σ : Type} (Stripped : EnrichedRecord → EnrichedRecord)
    (prefixLen : String → String → Nat) (e : evaluator) (strategy : IStrategy σ)
    (hok : ∀ s r, (strategy.AddHistoryRecord s r).1 = none) :
    ∀ (ds : List deviceRecords) (st : strategyJSON × σ × List Call),
      (evalDevices Stripped prefixLen e (traced strategy) ds st).2 = none ∧
      (evalDevices Stripped prefixLen e (traced strategy) ds st).1.2.2 =
        st.2.2 ++ ds.flatMap (deviceCalls Stripped e)
  | [], st => by simp [evalDevices]
  | d :: ds, st => by
    obtain ⟨h1, h2⟩ := evalDevice_log Stripped prefixLen e strategy hok d st
    cases hx : evalDevice Stripped prefixLen e (traced strategy) st d with
    | mk st1 err =>
      rw [hx] at h1 h2
      simp only at h1 h2
      subst h1
      obtain ⟨h3, h4⟩ := evalDevices_log Stripped prefixLen e strategy hok ds st1
      simp only [evalDevices, hx, List.flatMap_cons]
      exact ⟨h3, by rw [h4, h2, List.append_assoc]⟩

theorem evalUsers_log {σ : Type} (Stripped : EnrichedRecord → EnrichedRecord)
    (prefixLen : String → String → Nat) (e : evaluator) (strategy : IStrategy σ)
    (hok : ∀ s r, (strategy.AddHistoryRecord s r).1 = none) :
    ∀ (us : List userRecords) (st : strategyJSON × σ × List Call),
      (evalUsers Stripped prefixLen e (traced strategy) us st).2 = none ∧
      (evalUsers Stripped prefixLen e (traced strategy) us st).1.2.2 =
        st.2.2 ++ us.flatMap (fun u => u.Devices.flatMap (deviceCalls Stripped e))
  | [], st => by simp [evalUsers]
  | u :: us, st => by
    obtain ⟨h1, h2⟩ := evalDevices_log Stripped prefixLen e strategy hok u.Devices st
    cases hx : evalDevices Stripped prefixLen e (traced strategy) u.Devices st with
    | mk st1 err =>
      rw [hx] at h1 h2
      simp only at h1 h2
      subst h1
      obtain ⟨h3, h4⟩ := evalUsers_log Stripped prefixLen e strategy hok us st1
      simp only [evalUsers, hx, List.flatMap_cons]
      exact ⟨h3, by rw [h4, h2, List.append_assoc]⟩

theorem addHistoryRecord_mem_expectedCalls (Stripped : EnrichedRecord → EnrichedRecord)
    (e : evaluator) (r : EnrichedRecord)
    (h : Call.AddHistoryRecord r ∈ expectedCalls Stripped e) : skipped e r = false := by
  simp only [expectedCalls, deviceCalls, List.mem_flatMap, List.mem_append,
    List.mem_singleton] at h
  obtain ⟨u, _, d, _, h⟩ := h
  rcases h with ⟨r1, _, h⟩ | h
  · unfold recordCalls at h
    cases hs : skipped e r1 with
    | true => simp [hs] at h
    | false =>
      simp [hs] at h
      rw [h]; exact hs
  · cases h

/-- C6. When the strategy returns no error, the calls that `evaluate` makes on it are the
title query followed, device by device in listing order, by GetCandidates on the stripped
record and then AddHistoryRecord for every record not skipped, in load order, and one
ResetHistory after the records of the device; AddHistoryRecord is never called on a skipped
record. -/
theorem C6_evaluate_call_sequence {σ : Type}
    (Stripped : EnrichedRecord → EnrichedRecord) (prefixLen : String → String → Nat)
    (e : evaluator) (strategy : IStrategy σ) (s : σ)
    (hok : ∀ s r, (strategy.AddHistoryRecord s r).1 = none) :
    (evaluate Stripped prefixLen e (traced strategy) (s, [])).1 = none ∧
    (evaluate Stripped prefixLen e (traced strategy) (s, [])).2.2.2 =
      Call.GetTitleAndDescription :: expectedCalls Stripped e ∧
    (∀ r, skipped e r = true →
      Call.AddHistoryRecord r ∉ (evaluate Stripped prefixLen e (traced strategy) (s, [])).2.2.2) := by
  obtain ⟨h1, h2⟩ := evalUsers_log Stripped prefixLen e strategy hok e.UsersRecords
    ({ Title := ((traced strategy).GetTitleAndDescription (s, [])).1.1,
       Description := ((traced strategy).GetTitleAndDescription (s, [])).1.2,
       Matches := [], PrefixMatches := [] },
     ((traced strategy).GetTitleAndDescription (s, [])).2)
  have hlog : (evaluate Stripped prefixLen e (traced strategy) (s, [])).2.2.2 =
      Call.GetTitleAndDescription :: expectedCalls Stripped e := by
    cases hx : evalUsers Stripped prefixLen e (traced strategy) e.UsersRecords
      ({ Title := ((traced strategy).GetTitleAndDescription (s, [])).1.1,
         Description := ((traced strategy).GetTitleAndDescription (s, [])).1.2,
         Matches := [], PrefixMatches := [] },
       ((traced strategy).GetTitleAndDescription (s, [])).2) with
    | mk st1 err =>
      rw [hx] at h1 h2
      simp only at h1 h2
      subst h1
      simp only [evaluate, hx, h2, expectedCalls]
      simp [traced]
  refine ⟨?_, hlog, ?_⟩
  · cases hx : evalUsers Stripped prefixLen e (traced strategy) e.UsersRecords
      ({ Title := ((traced strategy).GetTitleAndDescription (s, [])).1.1,
         Description := ((traced strategy).GetTitleAndDescription (s, [])).1.2,
         Matches := [], PrefixMatches := [] },
       ((traced strategy).GetTitleAndDescription (s, [])).2) with
    | mk st1 err =>
      rw [hx] at h1
      simp only at h1
      subst h1
      simp only [evaluate, hx]
  · intro r hr hmem
    rw [hlog] at hmem
    rcases List.mem_cons.1 hmem with h | h
    · cases h
    · have := addHistoryRecord_mem_expectedCalls Stripped e r h
      rw [hr] at this
      exact absurd this (by decide)

/-- Instance of C6 on a device with three records, one of which failed and is skipped. -/
theorem C6_evaluate_call_sequence_witness :
    (∀ s r, ((fixedStrategy ["ls"]).AddHistoryRecord s r).1 = none) ∧
    (evaluate (fun r => r) longestcommonPrefixLen (sampleEvaluator true sampleUsers)
        (traced (fixedStrategy ["ls"])) ((), [])).2.2.2 =
      [Call.GetTitleAndDescription,
       Call.GetCandidates (sampleRecord "s1" "ls" 0), Call.AddHistoryRecord (sampleRecord "s1" "ls" 0),
       Call.GetCandidates (sampleRecord "s2" "ls" 0), Call.AddHistoryRecord (sampleRecord "s2" "ls" 0),
       Call.ResetHistory] := by
  refine ⟨fun _ _ => rfl, ?_⟩
  rw [(C6_evaluate_call_sequence (fun r => r) longestcommonPrefixLen
    (sampleEvaluator true sampleUsers) (fixedStrategy ["ls"]) () (fun _ _ => rfl)).2.1]
  decide

/-! ## The bash-like recency strategy -/

namespace strategyRecentBash

/-- Once no remaining cell holds the command, the removal loop changes nothing. -/
theorem removeLoop_of_not_mem (c : String) :
    ∀ (n i : Nat) (arr : List String) (len : Nat), i + n ≤ arr.length →
      (∀ x ∈ arr.drop i, x ≠ c) → removeLoop c n i arr len = some (arr.take len)
  | 0, _, _, _, _, _ => rfl
  | n + 1, i, arr, len, hlen, hno => by
    have hi : i < arr.length := by omega
    have hget : arr.getD i "" = arr[i] := by
      simp [List.getD_eq_getElem?_getD, List.getElem?_eq_getElem hi]
    have hne : arr.getD i "" ≠ c := by
      rw [hget]
      apply hno
      rw [List.mem_iff_getElem]
      exact ⟨0, by simp; omega, by simp⟩
    simp only [removeLoop, hne, if_false]
    apply removeLoop_of_not_mem c n (i + 1) arr len (by omega)
    intro x hx
    apply hno
    rw [← List.drop_drop 1 i] at hx
    exact List.mem_of_mem_drop hx

/-- On a duplicate-free list the removal loop erases the command and never panics. -/
theorem removeLoop_nodup (c : String) :
    ∀ (rest pre : List String), c ∉ pre → (pre ++ rest).Nodup →
      removeLoop c rest.length pre.length (pre ++ rest) (pre ++ rest).length =
        some ((pre ++ rest).erase c)
  | [], pre, hc, _ => by
    simp only [removeLoop, List.append_nil, List.length_nil]
    rw [List.take_length, List.erase_of_not_mem hc]
  | x :: rest, pre, hc, hnd => by
    have hget : (pre ++ x :: rest).getD pre.length "" = x := by
      have h : (pre ++ x :: rest)[pre.length]? = some x := by
        rw [List.getElem?_append_right (Nat.le_refl _)]; simp
      simp [List.getD_eq_getElem?_getD, h]
    by_cases hx : x = c
    · subst hx
      have hrest : x ∉ rest := by
        have := (List.nodup_append.1 hnd).2.1
        exact (List.nodup_cons.1 this).1
      have hlen : pre.length + 1 ≤ (pre ++ x :: rest).length := by simp
      have htake : (pre ++ x :: rest).take pre.length = pre := by simp
      have hdrop : (pre ++ x :: rest).drop (pre.length + 1) = rest := by
        rw [List.drop_append_eq_append_drop]
        simp
      have hsub : (pre ++ x :: rest).length - (pre.length + 1) = rest.length := by
        simp only [List.length_append, List.length_cons]; omega
      simp only [removeLoop, hget, if_true, hlen, htake, hdrop, hsub, List.take_length]
      have herase : (pre ++ x :: rest).erase x = pre ++ rest := by
        rw [List.erase_append_right _ hc, List.erase_cons_head]
      rw [herase]
      have hres := removeLoop_of_not_mem x rest.length (pre.length + 1)
        (pre ++ rest ++ (pre ++ x :: rest).drop ((pre ++ x :: rest).length - 1))
        ((pre ++ x :: rest).length - 1) ?_ ?_
      · rw [hres]
        congr 1
        have : (pre ++ x :: rest).length - 1 = (pre ++ rest).length := by simp
        rw [this, List.take_append_eq_append_take]
        simp
      · simp only [List.length_append, List.length_drop, List.length_cons]
        omega
      · intro y hy
        have hy1 : y ∈ (rest ++ (pre ++ x :: rest).drop ((pre ++ x :: rest).length - 1)).drop 1 := by
          rw [List.append_assoc, List.drop_append] at hy
          exact hy
        cases rest with
        | nil => simp at hy1
        | cons z rest1 =>
          have hy2 := List.mem_of_mem_drop hy1
          have hlast : (pre ++ x :: z :: rest1).drop ((pre ++ x :: z :: rest1).length - 1) =
              (z :: rest1).drop rest1.length := by
            rw [List.drop_append_eq_append_drop]
            have h1 : (pre ++ x :: z :: rest1).length - 1 = pre.length + (rest1.length + 1) := by
              simp only [List.length_append, List.length_cons]; omega
            rw [h1]
            have h2 : (pre.length + (rest1.length + 1)) - pre.length = rest1.length + 1 := by omega
            rw [h2, List.drop_of_length_le (by omega)]
            simp
          rw [hlast] at hy2
          rcases List.mem_append.1 hy2 with h | h
          · intro e; exact hrest (e ▸ h)
          · intro e; exact hrest (e ▸ List.mem_of_mem_drop h)
    · have hc1 : c ∉ pre ++ [x] := by
        simp only [List.mem_append, List.mem_singleton, not_or]
        exact ⟨hc, fun e => hx e.symm⟩
      have hnd1 : ((pre ++ [x]) ++ rest).Nodup := by simpa using hnd
      have ih := removeLoop_nodup c rest (pre ++ [x]) hc1 hnd1
      have happ : (pre ++ [x]) ++ rest = pre ++ x :: rest := by simp
      rw [happ] at ih
      simp only [List.length_append, List.length_singleton] at ih
      simp only [removeLoop, hget, hx, if_false, List.length_cons]
      simpa using ih

/-- On a well-formed state `AddHistoryRecord` returns no error, does not panic, erases the
earlier occurrence of the command and puts the command in front. -/
theorem AddHistoryRecord_eq (s : strategyRecentBash) (r : EnrichedRecord) (h : s.WF) :
    s.AddHistoryRecord r = some (none, s.added r) := by
  have hrem := removeLoop_nodup r.CmdLine (s.history r.SessionID) [] (by simp)
    (by simpa using h r.SessionID)
  simp only [List.nil_append, List.length_nil] at hrem
  unfold AddHistoryRecord added
  rw [hrem]
  cases r.LastRecordOfSession <;> rfl

theorem nodup_cons_erase {l : List String} (h : l.Nodup) (c : String) :
    (c :: l.erase c).Nodup :=
  List.nodup_cons.2 ⟨h.not_mem_erase, h.erase c⟩

theorem wf_added (s : strategyRecentBash) (r : EnrichedRecord) (h : s.WF) : (s.added r).WF := by
  intro sid
  unfold added
  cases r.LastRecordOfSession with
  | true =>
    simp only [if_true]
    by_cases hk : sid = r.SessionID
    · simp [hk]
    · simp only [hk, if_false]; exact h sid
  | false =>
    simp only [Bool.false_eq_true, if_false]
    by_cases hk : sid = r.SessionID
    · simp only [hk, if_true]; exact nodup_cons_erase (h _) _
    · simp only [hk, if_false]; exact h sid

theorem wf_init (s : strategyRecentBash) : s.init.WF := by
  intro sid; simp [init]

theorem GetCandidates_history (s : strategyRecentBash) (q : EnrichedRecord) :
    (s.GetCandidates q).2.history = s.history := by
  unfold GetCandidates
  split <;> rfl

theorem GetCandidates_histfile (s : strategyRecentBash) (q : EnrichedRecord) :
    (s.GetCandidates q).2.histfile = s.histfile := by
  unfold GetCandidates
  split <;> rfl

theorem GetCandidates_fst (s : strategyRecentBash) (q : EnrichedRecord) :
    (s.GetCandidates q).1 =
      s.history q.SessionID ++
        (if s.histfileSnapshot q.SessionID = [] then s.histfile
          else s.histfileSnapshot q.SessionID) := by
  unfold GetCandidates
  by_cases h : s.histfileSnapshot q.SessionID = [] <;> simp [h]

theorem wf_GetCandidates (s : strategyRecentBash) (q : EnrichedRecord) (h : s.WF) :
    (s.GetCandidates q).2.WF := by
  intro sid; rw [GetCandidates_history]; exact h sid

theorem run_cons (s : strategyRecentBash) (c : Call) (cs : List Call) :
    s.run (c :: cs) =
      match s.call c with
      | none => none
      | some (s1, o1) =>
        match s1.run cs with
        | none => none
        | some (s2, o2) => some (s2, o1 ++ o2) := rfl

theorem run_append (s : strategyRecentBash) (a b : List Call) :
    s.run (a ++ b) =
      match s.run a with
      | none => none
      | some (s1, o1) =>
        match s1.run b with
        | none => none
        | some (s2, o2) => some (s2, o1 ++ o2) := by
  induction a generalizing s with
  | nil =>
    rw [List.nil_append]
    show s.run b = match s.run b with
      | none => none
      | some (s2, o2) => some (s2, [] ++ o2)
    cases s.run b with
    | none => rfl
    | some x => rfl
  | cons c a ih =>
    rw [List.cons_append, run_cons, run_cons]
    cases s.call c with
    | none => rfl
    | some x =>
      obtain ⟨s1, o1⟩ := x
      simp only
      rw [ih s1]
      cases s1.run a with
      | none => rfl
      | some y =>
        obtain ⟨s2, o2⟩ := y
        simp only
        cases s2.run b with
        | none => rfl
        | some z => simp [List.append_assoc]

theorem firstSeen_of_nodup : ∀ {l : List String}, l.Nodup → firstSeen l = l
  | [], _ => rfl
  | c :: l, h => by
    have hc := (List.nodup_cons.1 h).1
    have hl := (List.nodup_cons.1 h).2
    simp only [firstSeen, firstSeen_of_nodup hl]
    congr 1
    rw [List.filter_eq_self]
    intro x hx
    have : x ≠ c := fun e => hc (e ▸ hx)
    simp [this]

theorem cons_erase_eq_firstSeen {l : List String} (h : l.Nodup) (c : String) :
    c :: l.erase c = firstSeen (c :: l) := by
  simp only [firstSeen, firstSeen_of_nodup h, h.erase_eq_filter]
  congr 1
  apply List.filter_congr
  intro x _
  by_cases hx : x = c <;> simp [hx]

/-- A run of AddHistoryRecord calls for one session, none flagged as last. -/
theorem run_adds (sid : String) :
    ∀ (rs : List EnrichedRecord) (s : strategyRecentBash), s.WF →
      (∀ r ∈ rs, r.SessionID = sid) → (∀ r ∈ rs, r.LastRecordOfSession = false) →
      ∃ s1, s.run (rs.map Call.AddHistoryRecord) = some (s1, []) ∧ s1.WF ∧
        s1.history sid = firstSeen ((rs.map (fun r => r.CmdLine)).reverse ++ s.history sid) ∧
        s1.histfile = s.histfile ∧ s1.histfileSnapshot = s.histfileSnapshot
  | [], s, h, _, _ => ⟨s, rfl, h, by simp [firstSeen_of_nodup (h sid)], rfl, rfl⟩
  | r :: rs, s, h, hsid, hlast => by
    have hr1 : r.SessionID = sid := hsid r (List.mem_cons_self _ _)
    have hr2 : r.LastRecordOfSession = false := hlast r (List.mem_cons_self _ _)
    obtain ⟨s1, hrun, hwf, hhist, hfile, hsnap⟩ := run_adds sid rs (s.added r) (wf_added s r h)
      (fun x hx => hsid x (List.mem_cons_of_mem _ hx))
      (fun x hx => hlast x (List.mem_cons_of_mem _ hx))
    refine ⟨s1, ?_, hwf, ?_, ?_, ?_⟩
    · simp only [List.map_cons, run, call, AddHistoryRecord_eq s r h, Option.map_some', hrun,
        List.append_nil]
    · rw [hhist]
      have hadded : (s.added r).history sid = firstSeen (r.CmdLine :: s.history sid) := by
        simp only [added, hr2, Bool.false_eq_true, if_false, hr1, if_true]
        exact cons_erase_eq_firstSeen (h sid) _
      rw [hadded, List.map_cons, List.reverse_cons, List.append_assoc, firstSeen_append,
        firstSeen_append _ ([r.CmdLine] ++ s.history sid)]
      congr 2
      have hnd : (firstSeen (r.CmdLine :: s.history sid)).Nodup := firstSeen_nodup _
      rw [firstSeen_of_nodup hnd]
      rfl
    · rw [hfile]; simp [added, hr2]
    · rw [hsnap]; simp [added, hr2]

theorem addedIn_mono {tr : List Call} {sid c : String} (x : Call) (h : AddedIn tr sid c) :
    AddedIn (tr ++ [x]) sid c := by
  obtain ⟨r, hr, h1, h2⟩ := h
  exact ⟨r, List.mem_append_left _ hr, h1, h2⟩

theorem flushedIn_mono {tr : List Call} {c : String} (x : Call) (h : FlushedIn tr c) :
    FlushedIn (tr ++ [x]) c := by
  obtain ⟨t1, t2, r0, r1, htr, h1, h2, h3, h4⟩ := h
  exact ⟨t1, t2 ++ [x], r0, r1, by rw [htr]; simp, h1, h2, h3, h4⟩

theorem newSession_of_snoc {tr : List Call} {sid : String} (x : Call)
    (h : NewSession (tr ++ [x]) sid) : NewSession tr sid :=
  ⟨fun q hq => h.1 q (List.mem_append_left _ hq), fun r hr => h.2 r (List.mem_append_left _ hr)⟩

theorem traceInv_new : TraceInv [] new := by
  refine ⟨wf_init _, ?_, ?_, ?_, ?_⟩
  · intro sid c hc; simp [new, init] at hc
  · intro c hc; simp [new, init] at hc
  · intro sid c hc; simp [new, init] at hc
  · intro sid _; simp [new, init]

/-- The invariant is kept by every call, and no call panics under it. -/
theorem call_inv (tr : List Call) (s : strategyRecentBash) (c : Call) (h : TraceInv tr s) :
    ∃ s1 o1, s.call c = some (s1, o1) ∧ TraceInv (tr ++ [c]) s1 := by
  obtain ⟨hwf, hhist, hfile, hsnap, hnew⟩ := h
  cases c with
  | GetTitleAndDescription =>
    exact ⟨s, [], rfl, hwf, fun sid c hc => addedIn_mono _ (hhist sid c hc),
      fun c hc => flushedIn_mono _ (hfile c hc),
      fun sid c hc => flushedIn_mono _ (hsnap sid c hc),
      fun sid hs => hnew sid (newSession_of_snoc _ hs)⟩
  | GetCandidates q =>
    refine ⟨(s.GetCandidates q).2, [(s.GetCandidates q).1], rfl, wf_GetCandidates s q hwf,
      ?_, ?_, ?_, ?_⟩
    · intro sid c hc
      rw [GetCandidates_history] at hc
      exact addedIn_mono _ (hhist sid c hc)
    · intro c hc
      rw [GetCandidates_histfile] at hc
      exact flushedIn_mono _ (hfile c hc)
    · intro sid c hc
      unfold GetCandidates at hc
      by_cases he : s.histfileSnapshot q.SessionID = []
      · simp only [he, if_true] at hc
        by_cases hk : sid = q.SessionID
        · simp only [hk, if_true] at hc
          exact flushedIn_mono _ (hfile c hc)
        · simp only [hk, if_false] at hc
          exact flushedIn_mono _ (hsnap sid c hc)
      · simp only [he, if_false] at hc
        exact flushedIn_mono _ (hsnap sid c hc)
    · intro sid hs
      have hq : q.SessionID ≠ sid := hs.1 q (by simp)
      have hq1 : ¬ sid = q.SessionID := fun e => hq e.symm
      obtain ⟨h1, h2⟩ := hnew sid (newSession_of_snoc _ hs)
      rw [GetCandidates_history]
      refine ⟨h1, ?_⟩
      unfold GetCandidates
      by_cases he : s.histfileSnapshot q.SessionID = []
      · simp only [he, if_true, hq1, if_false]; exact h2
      · simp only [he, if_false]; exact h2
  | AddHistoryRecord r =>
    refine ⟨s.added r, [], by simp [call, AddHistoryRecord_eq s r hwf], wf_added s r hwf,
      ?_, ?_, ?_, ?_⟩
    · intro sid c hc
      unfold added at hc
      cases hl : r.LastRecordOfSession with
      | true =>
        simp only [hl, if_true] at hc
        by_cases hk : sid = r.SessionID
        · simp [hk] at hc
        · simp only [hk, if_false] at hc
          exact addedIn_mono _ (hhist sid c hc)
      | false =>
        simp only [hl, Bool.false_eq_true, if_false] at hc
        by_cases hk : sid = r.SessionID
        · simp only [hk, if_true, List.mem_cons] at hc
          rcases hc with hc | hc
          · exact ⟨r, by simp, hk.symm, hc.symm⟩
          · rw [hk]
            exact addedIn_mono _ (hhist _ c (List.mem_of_mem_erase hc))
        · simp only [hk, if_false] at hc
          exact addedIn_mono _ (hhist sid c hc)
    · intro c hc
      unfold added at hc
      cases hl : r.LastRecordOfSession with
      | true =>
        simp only [hl, if_true, List.cons_append, List.mem_cons, List.mem_append] at hc
        rcases hc with hc | hc | hc
        · exact ⟨tr, [], r, r, rfl, hl, by simp, rfl, hc.symm⟩
        · obtain ⟨r0, hr0, h1, h2⟩ := hhist _ c (List.mem_of_mem_erase hc)
          exact ⟨tr, [], r0, r, rfl, hl, List.mem_append_left _ hr0, h1, h2⟩
        · exact flushedIn_mono _ (hfile c hc)
      | false =>
        simp only [hl, Bool.false_eq_true, if_false] at hc
        exact flushedIn_mono _ (hfile c hc)
    · intro sid c hc
      unfold added at hc
      cases hl : r.LastRecordOfSession with
      | true =>
        simp only [hl, if_true] at hc
        by_cases hk : sid = r.SessionID
        · simp [hk] at hc
        · simp only [hk, if_false] at hc
          exact flushedIn_mono _ (hsnap sid c hc)
      | false =>
        simp only [hl, Bool.false_eq_true, if_false] at hc
        exact flushedIn_mono _ (hsnap sid c hc)
    · intro sid hs
      have hq : r.SessionID ≠ sid := hs.2 r (by simp)
      have hq1 : ¬ sid = r.SessionID := fun e => hq e.symm
      obtain ⟨h1, h2⟩ := hnew sid (newSession_of_snoc _ hs)
      unfold added
      cases r.LastRecordOfSession with
      | true => simp only [if_true, hq1, if_false]; exact ⟨h1, h2⟩
      | false => simp only [Bool.false_eq_true, if_false, hq1]; exact ⟨h1, h2⟩
  | ResetHistory =>
    refine ⟨s.init, [], rfl, wf_init s, ?_, ?_, ?_, ?_⟩
    · intro sid c hc; simp [init] at hc
    · intro c hc
      exact flushedIn_mono _ (hfile c hc)
    · intro sid c hc; simp [init] at hc
    · intro sid _; simp [init]

/-- The invariant is kept by every sequence of calls, and no call panics under it. -/
theorem run_inv :
    ∀ (cs tr : List Call) (s : strategyRecentBash), TraceInv tr s →
      ∃ s1 o1, s.run cs = some (s1, o1) ∧ TraceInv (tr ++ cs) s1
  | [], tr, s, h => ⟨s, [], rfl, by simpa using h⟩
  | c :: cs, tr, s, h => by
    obtain ⟨s1, o1, hc, h1⟩ := call_inv tr s c h
    obtain ⟨s2, o2, hr, h2⟩ := run_inv cs (tr ++ [c]) s1 h1
    refine ⟨s2, o1 ++ o2, ?_, by simpa using h2⟩
    rw [run_cons, hc]
    simp only [hr]

end strategyRecentBash

/-- C7. ResetHistory keeps the history file: after a session ended and the strategy was
reset, the first query of another session returns the command of the ended session, whereas
the same query on a new strategy returns no candidate. -/
theorem C7_resetHistory_keeps_histfile :
    (strategyRecentBash.new.run
        [Call.GetCandidates (sessionRecord "s1" "" false),
         Call.AddHistoryRecord (sessionRecord "s1" "X" true),
         Call.ResetHistory,
         Call.GetCandidates (sessionRecord "s2" "" false)]).map (fun x => x.2) =
      some [[], ["X"]] ∧
    (strategyRecentBash.new.run
        [Call.GetCandidates (sessionRecord "s2" "" false)]).map (fun x => x.2) = some [[]] ∧
    (strategyRecentBash.ResetHistory
        { histfile := ["X"], histfileSnapshot := fun _ => [], history := fun _ => [] }).2.histfile =
      ["X"] := by
  decide

/-- C8. A session first queried while the history file is empty has no frozen snapshot: once
another session ends, its next query returns the commands of that session after its own. -/
theorem C8_snapshot_taken_again_when_empty :
    (strategyRecentBash.new.run
        [Call.GetCandidates (sessionRecord "S" "" false),
         Call.AddHistoryRecord (sessionRecord "S" "a" false),
         Call.GetCandidates (sessionRecord "T" "" false),
         Call.AddHistoryRecord (sessionRecord "T" "x" true),
         Call.GetCandidates (sessionRecord "S" "" false)]).map (fun x => x.2) =
      some [[], [], ["a", "x"]] := by
  decide

/-- C9. On a strategy reached from a new one by any calls, AddHistoryRecord of a record
flagged as last puts the in-session list of the session, with the command of the record in
front, before the history file, and clears the in-session list and the snapshot of the
session; a session no call concerned then gets exactly the new history file, and every
candidate ever returned for a session was added to that session or to a session that ended. -/
theorem C9_session_end_flushes_to_histfile (tr : List Call) (r : EnrichedRecord)
    (hlast : r.LastRecordOfSession = true) :
    ∃ (s : strategyRecentBash) (outs : List (List String)) (s1 : strategyRecentBash),
      strategyRecentBash.new.run tr = some (s, outs) ∧
      s.AddHistoryRecord r = some (none, s1) ∧
      (s.AddHistoryRecord { r with LastRecordOfSession := false }).map
          (fun x => x.2.history r.SessionID) =
        some (r.CmdLine :: (s.history r.SessionID).erase r.CmdLine) ∧
      s1.histfile = (r.CmdLine :: (s.history r.SessionID).erase r.CmdLine) ++ s.histfile ∧
      s1.history r.SessionID = [] ∧ s1.histfileSnapshot r.SessionID = [] ∧
      (∀ q : EnrichedRecord, NewSession (tr ++ [Call.AddHistoryRecord r]) q.SessionID →
        (s1.GetCandidates q).1 = s1.histfile) ∧
      (∀ (q : EnrichedRecord) (c : String), c ∈ (s.GetCandidates q).1 →
        AddedIn tr q.SessionID c ∨ FlushedIn tr c) ∧
      (∀ (q : EnrichedRecord) (c : String), ¬ AddedIn tr q.SessionID c → ¬ FlushedIn tr c →
        c ∉ (s.GetCandidates q).1) := by
  obtain ⟨s, outs, hrun, hinv⟩ := strategyRecentBash.run_inv tr [] strategyRecentBash.new
    strategyRecentBash.traceInv_new
  rw [List.nil_append] at hinv
  obtain ⟨s1, o1, hcall, hinv1⟩ := strategyRecentBash.call_inv tr s (Call.AddHistoryRecord r) hinv
  have hadd := strategyRecentBash.AddHistoryRecord_eq s r hinv.1
  have hs1 : s1 = s.added r := by
    simp only [strategyRecentBash.call, hadd, Option.map_some', Option.some.injEq,
      Prod.mk.injEq] at hcall
    exact hcall.1.symm
  have hiso : ∀ (q : EnrichedRecord) (c : String), c ∈ (s.GetCandidates q).1 →
      AddedIn tr q.SessionID c ∨ FlushedIn tr c := by
    intro q c hc
    rw [strategyRecentBash.GetCandidates_fst, List.mem_append] at hc
    rcases hc with hc | hc
    · exact Or.inl (hinv.2.1 _ c hc)
    · right
      by_cases he : s.histfileSnapshot q.SessionID = []
      · rw [if_pos he] at hc; exact hinv.2.2.1 c hc
      · rw [if_neg he] at hc; exact hinv.2.2.2.1 _ c hc
  refine ⟨s, outs, s.added r, hrun, hadd, ?_, ?_, ?_, ?_, ?_, hiso, ?_⟩
  · rw [strategyRecentBash.AddHistoryRecord_eq s _ hinv.1]
    simp [strategyRecentBash.added]
  · simp [strategyRecentBash.added, hlast]
  · simp [strategyRecentBash.added, hlast]
  · simp [strategyRecentBash.added, hlast]
  · intro q hq
    rw [hs1] at hinv1
    obtain ⟨h1, h2⟩ := hinv1.2.2.2.2 q.SessionID hq
    rw [strategyRecentBash.GetCandidates_fst, h1, h2]
    simp
  · intro q c h1 h2 hc
    rcases hiso q c hc with h | h
    · exact h1 h
    · exact h2 h

/-- Instance of C9: session `s1` ran Y and ends with X, so the history file becomes X, Y and
a new session `s2` is proposed exactly these. -/
theorem C9_session_end_flushes_to_histfile_witness :
    (sessionRecord "s1" "X" true).LastRecordOfSession = true ∧
    ∃ (s : strategyRecentBash) (outs : List (List String)) (s1 : strategyRecentBash),
      strategyRecentBash.new.run
          [Call.GetCandidates (sessionRecord "s1" "" false),
           Call.AddHistoryRecord (sessionRecord "s1" "Y" false),
           Call.GetCandidates (sessionRecord "s1" "" false)] = some (s, outs) ∧
      s.AddHistoryRecord (sessionRecord "s1" "X" true) = some (none, s1) ∧
      s1.histfile = ["X", "Y"] ∧
      (s1.GetCandidates (sessionRecord "s2" "" false)).1 = ["X", "Y"] := by
  refine ⟨rfl, ?_⟩
  obtain ⟨s, outs, s1, hrun, hadd, _, hfile, _, _, hnew, _⟩ :=
    C9_session_end_flushes_to_histfile
      [Call.GetCandidates (sessionRecord "s1" "" false),
       Call.AddHistoryRecord (sessionRecord "s1" "Y" false),
       Call.GetCandidates (sessionRecord "s1" "" false)]
      (sessionRecord "s1" "X" true) rfl
  have hval : (strategyRecentBash.new.run
      [Call.GetCandidates (sessionRecord "s1" "" false),
       Call.AddHistoryRecord (sessionRecord "s1" "Y" false),
       Call.GetCandidates (sessionRecord "s1" "" false)]).map
      (fun x => (x.1.history "s1", x.1.histfile)) = some (["Y"], []) := by decide
  rw [hrun] at hval
  simp only [Option.map_some', Option.some.injEq, Prod.mk.injEq] at hval
  have hfile1 : s1.histfile = ["X", "Y"] := by
    rw [hfile]
    show ("X" :: (s.history "s1").erase "X") ++ s.histfile = ["X", "Y"]
    rw [hval.1, hval.2]
    decide
  refine ⟨s, outs, s1, hrun, hadd, hfile1, ?_⟩
  rw [hnew (sessionRecord "s2" "" false) ?_, hfile1]
  constructor
  · intro q hq
    simp only [List.cons_append, List.nil_append, List.mem_cons, List.mem_singleton,
      List.mem_nil_iff, or_false, Call.GetCandidates.injEq] at hq
    rcases hq with hq | hq | hq | hq
    · rw [hq]; decide
    · cases hq
    · rw [hq]; decide
    · cases hq
  · intro q hq
    simp only [List.cons_append, List.nil_append, List.mem_cons, List.mem_singleton,
      List.mem_nil_iff, or_false, Call.AddHistoryRecord.injEq] at hq
    rcases hq with hq | hq | hq | hq
    · cases hq
    · rw [hq]; decide
    · cases hq
    · rw [hq]; decide

/-- C10. On an initialised strategy, after AddHistoryRecord calls for one session, none
flagged as last, the in-session list of the session holds every distinct command of the
calls exactly once, ordered by last occurrence with the latest first, and GetCandidates for
the session returns this list followed by the history file. -/
theorem C10_in_session_list_deduplicated_latest_first (s0 : strategyRecentBash) (sid : String)
    (rs : List EnrichedRecord) (hsid : ∀ r ∈ rs, r.SessionID = sid)
    (hlast : ∀ r ∈ rs, r.LastRecordOfSession = false) :
    ∃ s : strategyRecentBash,
      s0.init.run (rs.map Call.AddHistoryRecord) = some (s, []) ∧
      s.history sid = firstSeen (rs.map (fun r => r.CmdLine)).reverse ∧
      (s.history sid).Nodup ∧
      (∀ c, c ∈ s.history sid ↔ c ∈ rs.map (fun r => r.CmdLine)) ∧
      (∀ q : EnrichedRecord, q.SessionID = sid →
        (s.GetCandidates q).1 = firstSeen (rs.map (fun r => r.CmdLine)).reverse ++ s0.histfile) := by
  obtain ⟨s, hrun, hwf, hhist, hfile, hsnap⟩ :=
    strategyRecentBash.run_adds sid rs s0.init (strategyRecentBash.wf_init s0) hsid hlast
  have hhist1 : s.history sid = firstSeen (rs.map (fun r => r.CmdLine)).reverse := by
    rw [hhist]; simp [strategyRecentBash.init]
  refine ⟨s, hrun, hhist1, hwf sid, ?_, ?_⟩
  · intro c
    rw [hhist1, mem_firstSeen, List.mem_reverse]
  · intro q hq
    rw [strategyRecentBash.GetCandidates_fst, hq, hhist1, hsnap, hfile]
    simp [strategyRecentBash.init]

/-- Instance of C10: the commands A, B, A, C in one session with an empty history file make
GetCandidates return C, A, B. -/
theorem C10_in_session_list_deduplicated_latest_first_witness :
    (∀ r ∈ [sessionRecord "S" "A" false, sessionRecord "S" "B" false,
        sessionRecord "S" "A" false, sessionRecord "S" "C" false], r.SessionID = "S") ∧
    (∀ r ∈ [sessionRecord "S" "A" false, sessionRecord "S" "B" false,
        sessionRecord "S" "A" false, sessionRecord "S" "C" false],
      r.LastRecordOfSession = false) ∧
    ∃ s : strategyRecentBash,
      strategyRecentBash.new.run
          [Call.AddHistoryRecord (sessionRecord "S" "A" false),
           Call.AddHistoryRecord (sessionRecord "S" "B" false),
           Call.AddHistoryRecord (sessionRecord "S" "A" false),
           Call.AddHistoryRecord (sessionRecord "S" "C" false)] = some (s, []) ∧
      s.history "S" = ["C", "A", "B"] ∧
      (s.GetCandidates (sessionRecord "S" "" false)).1 = ["C", "A", "B"] := by
  refine ⟨by decide, by decide, ?_⟩
  obtain ⟨s, hrun, hhist, _, _, hget⟩ := C10_in_session_list_deduplicated_latest_first
    { histfile := [], histfileSnapshot := fun _ => [], history := fun _ => [] } "S"
    [sessionRecord "S" "A" false, sessionRecord "S" "B" false,
     sessionRecord "S" "A" false, sessionRecord "S" "C" false] (by decide) (by decide)
  refine ⟨s, hrun, ?_, ?_⟩
  · rw [hhist]; decide
  · rw [hget _ rfl]; decide



/-! ## Strategy errors in `evaluate` -/

theorem addOK_nil (err : GoError) : AddOK [] err := by
  intro r x h; cases h

theorem AddOK.append_of_none {l1 l2 : List (Call × GoError)} {err : GoError}
    (h1 : AddOK l1 none) (h2 : AddOK l2 err) : AddOK (l1 ++ l2) err := by
  intro r x h
  rcases List.mem_append.1 h with h | h
  · exact absurd (h1 r x h) (by simp)
  · exact h2 r x h

theorem evalRecord_simulates {σ : Type} (Stripped : EnrichedRecord → EnrichedRecord)
    (prefixLen : String → String → Nat) (e : evaluator) (strategy : IStrategy σ)
    (sd : strategyJSON) (s : σ) (l : List (Call × GoError)) (r : EnrichedRecord) :
    Simulates (evalRecord Stripped prefixLen e (recorded strategy) (sd, (s, l)) r)
      (evalRecord Stripped prefixLen e strategy (sd, s) r) l := by
  cases h : skipped e r with
  | true =>
    rw [evalRecord_of_skipped _ _ _ _ _ _ h, evalRecord_of_skipped _ _ _ _ _ _ h]
    exact ⟨[], by simp, addOK_nil _⟩
  | false =>
    rw [evalRecord_of_not_skipped _ _ _ _ _ _ h, evalRecord_of_not_skipped _ _ _ _ _ _ h]
    refine ⟨[(Call.AddHistoryRecord r,
      (strategy.AddHistoryRecord (strategy.GetCandidates s (Stripped r)).2 r).1)], rfl, ?_⟩
    intro r1 x hx
    simp only [List.mem_singleton, Prod.mk.injEq] at hx
    exact hx.2.symm

theorem evalRecords_simulates {σ : Type} (Stripped : EnrichedRecord → EnrichedRecord)
    (prefixLen : String → String → Nat) (e : evaluator) (strategy : IStrategy σ) :
    ∀ (rs : List EnrichedRecord) (sd : strategyJSON) (s : σ) (l : List (Call × GoError)),
      Simulates (evalRecords Stripped prefixLen e (recorded strategy) rs (sd, (s, l)))
        (evalRecords Stripped prefixLen e strategy rs (sd, s)) l
  | [], sd, s, l => ⟨[], by simp [evalRecords], addOK_nil _⟩
  | r :: rs, sd, s, l => by
    obtain ⟨l1, h1, hok1⟩ := evalRecord_simulates Stripped prefixLen e strategy sd s l r
    cases hx : evalRecord Stripped prefixLen e strategy (sd, s) r with
    | mk st1 err =>
      obtain ⟨sd1, s1⟩ := st1
      rw [hx] at h1 hok1
      simp only at h1 hok1
      cases err with
      | some x =>
        refine ⟨l1, ?_, ?_⟩
        · simp only [evalRecords, h1, hx]
        · simp only [evalRecords, hx]; exact hok1
      | none =>
        obtain ⟨l2, h2, hok2⟩ := evalRecords_simulates Stripped prefixLen e strategy rs sd1 s1
          (l ++ l1)
        refine ⟨l1 ++ l2, ?_, ?_⟩
        · simp only [evalRecords, h1, hx, h2, List.append_assoc]
        · simp only [evalRecords, hx]; exact AddOK.append_of_none hok1 hok2

theorem evalDevice_simulates {σ : Type} (Stripped : EnrichedRecord → EnrichedRecord)
    (prefixLen : String → String → Nat) (e : evaluator) (strategy : IStrategy σ)
    (d : deviceRecords) (sd : strategyJSON) (s : σ) (l : List (Call × GoError)) :
    Simulates (evalDevice Stripped prefixLen e (recorded strategy) (sd, (s, l)) d)
      (evalDevice Stripped prefixLen e strategy (sd, s) d) l := by
  obtain ⟨l1, h1, hok1⟩ := evalRecords_simulates Stripped prefixLen e strategy d.Records sd s l
  cases hx : evalRecords Stripped prefixLen e strategy d.Records (sd, s) with
  | mk st1 err =>
    obtain ⟨sd1, s1⟩ := st1
    rw [hx] at h1 hok1
    simp only at h1 hok1
    cases err with
    | some x =>
      refine ⟨l1, ?_, ?_⟩
      · simp only [evalDevice, h1, hx]
      · simp only [evalDevice, hx]; exact hok1
    | none =>
      refine ⟨l1 ++ [(Call.ResetHistory, (strategy.ResetHistory s1).1)], ?_, ?_⟩
      · simp only [evalDevice, h1, hx]
        show ((sd1, (strategy.ResetHistory s1).2,
          (l ++ l1) ++ [(Call.ResetHistory, (strategy.ResetHistory s1).1)]), none) = _
        rw [List.append_assoc]
      · simp only [evalDevice, hx]
        refine AddOK.append_of_none hok1 ?_
        intro r x hmem
        simp at hmem

theorem evalDevices_simulates {σ : Type} (Stripped : EnrichedRecord → EnrichedRecord)
    (prefixLen : String → String → Nat) (e : evaluator) (strategy : IStrategy σ) :
    ∀ (ds : List deviceRecords) (sd : strategyJSON) (s : σ) (l : List (Call × GoError)),
      Simulates (evalDevices Stripped prefixLen e (recorded strategy) ds (sd, (s, l)))
        (evalDevices Stripped prefixLen e strategy ds (sd, s)) l
  | [], sd, s, l => ⟨[], by simp [evalDevices], addOK_nil _⟩
  | d :: ds, sd, s, l => by
    obtain ⟨l1, h1, hok1⟩ := evalDevice_simulates Stripped prefixLen e strategy d sd s l
    cases hx : evalDevice Stripped prefixLen e strategy (sd, s) d with
    | mk st1 err =>
      obtain ⟨sd1, s1⟩ := st1
      rw [hx] at h1 hok1
      simp only at h1 hok1
      cases err with
      | some x =>
        refine ⟨l1, ?_, ?_⟩
        · simp only [evalDevices, h1, hx]
        · simp only [evalDevices, hx]; exact hok1
      | none =>
        obtain ⟨l2, h2, hok2⟩ := evalDevices_simulates Stripped prefixLen e strategy ds sd1 s1
          (l ++ l1)
        refine ⟨l1 ++ l2, ?_, ?_⟩
        · simp only [evalDevices, h1, hx, h2, List.append_assoc]
        · simp only [evalDevices, hx]; exact AddOK.append_of_none hok1 hok2

theorem evalUsers_simulates {σ : Type} (Stripped : EnrichedRecord → EnrichedRecord)
    (prefixLen : String → String → Nat) (e : evaluator) (strategy : IStrategy σ) :
    ∀ (us : List userRecords) (sd : strategyJSON) (s : σ) (l : List (Call × GoError)),
      Simulates (evalUsers Stripped prefixLen e (recorded strategy) us (sd, (s, l)))
        (evalUsers Stripped prefixLen e strategy us (sd, s)) l
  | [], sd, s, l => ⟨[], by simp [evalUsers], addOK_nil _⟩
  | u :: us, sd, s, l => by
    obtain ⟨l1, h1, hok1⟩ := evalDevices_simulates Stripped prefixLen e strategy u.Devices sd s l
    cases hx : evalDevices Stripped prefixLen e strategy u.Devices (sd, s) with
    | mk st1 err =>
      obtain ⟨sd1, s1⟩ := st1
      rw [hx] at h1 hok1
      simp only at h1 hok1
      cases err with
      | some x =>
        refine ⟨l1, ?_, ?_⟩
        · simp only [evalUsers, h1, hx]
        · simp only [evalUsers, hx]; exact hok1
      | none =>
        obtain ⟨l2, h2, hok2⟩ := evalUsers_simulates Stripped prefixLen e strategy us sd1 s1
          (l ++ l1)
        refine ⟨l1 ++ l2, ?_, ?_⟩
        · simp only [evalUsers, h1, hx, h2, List.append_assoc]
        · simp only [evalUsers, hx]; exact AddOK.append_of_none hok1 hok2

theorem evaluate_simulates {σ : Type} (Stripped : EnrichedRecord → EnrichedRecord)
    (prefixLen : String → String → Nat) (e : evaluator) (strategy : IStrategy σ) (s : σ) :
    ∃ l2, evaluate Stripped prefixLen e (recorded strategy) (s, []) =
        ((evaluate Stripped prefixLen e strategy s).1,
         (evaluate Stripped prefixLen e strategy s).2.1,
         ((evaluate Stripped prefixLen e strategy s).2.2, l2)) ∧
      AddOK l2 (evaluate Stripped prefixLen e strategy s).1 := by
  obtain ⟨l2, h, hok⟩ := evalUsers_simulates Stripped prefixLen e strategy e.UsersRecords
    { Title := (strategy.GetTitleAndDescription s).1.1,
      Description := (strategy.GetTitleAndDescription s).1.2,
      Matches := [], PrefixMatches := [] }
    (strategy.GetTitleAndDescription s).2 []
  cases hx : evalUsers Stripped prefixLen e strategy e.UsersRecords
    ({ Title := (strategy.GetTitleAndDescription s).1.1,
       Description := (strategy.GetTitleAndDescription s).1.2,
       Matches := [], PrefixMatches := [] },
     (strategy.GetTitleAndDescription s).2) with
  | mk st1 err =>
    obtain ⟨sd1, s1⟩ := st1
    rw [hx] at h hok
    simp only [List.nil_append] at h
    have h1 : evalUsers Stripped prefixLen e (recorded strategy) e.UsersRecords
        ({ Title := ((recorded strategy).GetTitleAndDescription (s, [])).1.1,
           Description := ((recorded strategy).GetTitleAndDescription (s, [])).1.2,
           Matches := [], PrefixMatches := [] },
         ((recorded strategy).GetTitleAndDescription (s, [])).2) = ((sd1, s1, l2), err) := h
    refine ⟨l2, ?_, ?_⟩
    · cases err with
      | some x => simp only [evaluate, h1, hx]
      | none => simp only [evaluate, h1, hx]
    · cases err with
      | some x => simp only [evaluate, hx]; exact hok
      | none => simp only [evaluate, hx]; exact hok

/-- When `evaluate` returns an error, it returns the evaluator as it received it. -/
theorem evaluate_error_keeps_evaluator {σ : Type} (Stripped : EnrichedRecord → EnrichedRecord)
    (prefixLen : String → String → Nat) (e : evaluator) (strategy : IStrategy σ) (s : σ)
    (err : String) (h : (evaluate Stripped prefixLen e strategy s).1 = some err) :
    (evaluate Stripped prefixLen e strategy s).2.1 = e := by
  unfold evaluate at h ⊢
  simp only at h ⊢
  split at h
  · rename_i heq
    simp only [heq]
  · simp at h

/-- C11. If a call of AddHistoryRecord that `evaluate` makes returns an error, `evaluate`
returns that error and hands back the evaluator unchanged, so that nothing is appended to
Strategies. -/
theorem C11_addHistoryRecord_error_discards_result {σ : Type}
    (Stripped : EnrichedRecord → EnrichedRecord) (prefixLen : String → String → Nat)
    (e : evaluator) (strategy : IStrategy σ) (s : σ) (r : EnrichedRecord) (err : String)
    (hfail : (Call.AddHistoryRecord r, some err) ∈
      (evaluate Stripped prefixLen e (recorded strategy) (s, [])).2.2.2) :
    (evaluate Stripped prefixLen e strategy s).1 = some err ∧
    (evaluate Stripped prefixLen e strategy s).2.1 = e ∧
    (evaluate Stripped prefixLen e strategy s).2.1.Strategies = e.Strategies := by
  obtain ⟨l2, h, hok⟩ := evaluate_simulates Stripped prefixLen e strategy s
  rw [h] at hfail
  have herr := hok r err hfail
  have hkeep := evaluate_error_keeps_evaluator Stripped prefixLen e strategy s err herr
  exact ⟨herr, hkeep, by rw [hkeep]⟩

/-- Instance of C11: the second of three records makes AddHistoryRecord fail. -/
theorem C11_addHistoryRecord_error_discards_result_witness :
    (Call.AddHistoryRecord (sampleRecord "s1" "false" 1), some "cannot add") ∈
      (evaluate (fun r => r) longestcommonPrefixLen (sampleEvaluator false sampleUsers)
        (recorded addFailingStrategy) ((), [])).2.2.2 ∧
    (evaluate (fun r => r) longestcommonPrefixLen (sampleEvaluator false sampleUsers)
        addFailingStrategy ()).1 = some "cannot add" ∧
    (evaluate (fun r => r) longestcommonPrefixLen (sampleEvaluator false sampleUsers)
        addFailingStrategy ()).2.1.Strategies = [] := by
  have h := C11_addHistoryRecord_error_discards_result (fun r => r) longestcommonPrefixLen
    (sampleEvaluator false sampleUsers) addFailingStrategy () (sampleRecord "s1" "false" 1)
    "cannot add" (by decide)
  exact ⟨by decide, h.1, h.2.2⟩

/-- C12. The error that ResetHistory returns is dropped: with a strategy whose ResetHistory
fails after the only device, `evaluate` returns no error and appends the result of the
strategy, with its three entries, to Strategies. -/
theorem C12_resetHistory_error_is_dropped :
    (Call.ResetHistory, some "cannot reset") ∈
      (evaluate (fun r => r) longestcommonPrefixLen (sampleEvaluator false sampleUsers)
        (recorded resetFailingStrategy) ((), [])).2.2.2 ∧
    (evaluate (fun r => r) longestcommonPrefixLen (sampleEvaluator false sampleUsers)
        resetFailingStrategy ()).1 = none ∧
    (evaluate (fun r => r) longestcommonPrefixLen (sampleEvaluator false sampleUsers)
        resetFailingStrategy ()).2.1.Strategies.map
        (fun sd => (sd.Title, sd.Matches.length, sd.PrefixMatches.length)) =
      [("reset fails", 3, 3)] := by
  decide

/-! ## Idempotence of the enrichment -/

/-- With a sampling rate of zero, the forward loop run again from the same state on records
that carry the session ids, sanitized flags and sequential ids of its output changes nothing. -/
theorem seqLoop_again (san : Bool) (dbg : Rat) (rnd rnd1 : Nat → Rat) :
    ∀ (l : List EnrichedRecord) (st : SeqState) (k : Nat) (out : List EnrichedRecord),
      seqLoop san dbg rnd st k l = some out →
      ∀ (l1 : List EnrichedRecord) (k1 : Nat), List.Forall₂ SameKey out l1 →
        seqLoop san 0 rnd1 st k1 l1 = some l1
  | [], st, k, out, h => by
    simp only [seqLoop, Option.some.injEq] at h
    subst h
    intro l1 k1 hrel
    cases hrel
    rfl
  | r :: rest, st, k, out, h => by
    intro l1 k1 hrel
    cases hstep : seqStep san dbg (rnd k) st r with
    | none => simp [seqLoop, hstep] at h
    | some p =>
      obtain ⟨st1, o⟩ := p
      cases hrest : seqLoop san dbg rnd st1 (k + 1) rest with
      | none => simp [seqLoop, hstep, hrest] at h
      | some outrest =>
        simp only [seqLoop, hstep, hrest, Option.some.injEq] at h
        subst h
        cases hrel with
        | cons hob hrel1 =>
          rename_i b l1rest
          obtain ⟨hsid, hsanb, hseq⟩ := hob
          have ih := seqLoop_again san dbg rnd rnd1 rest st1 (k + 1) outrest hrest l1rest
            (k1 + 1) hrel1
          -- what the first run did on `r`
          have hrs : r.Sanitized = san := by
            by_contra hne
            have : (r.Sanitized != san) = true := by simpa using hne
            simp [seqStep, this] at hstep
          simp only [seqStep, hrs, bne_self_eq_false, Bool.false_eq_true, if_false,
            Option.some.injEq, Prod.mk.injEq] at hstep
          obtain ⟨hst1, ho⟩ := hstep
          have hosid : o.SessionID = r.SessionID := by rw [← ho]
          have hosan : o.Sanitized = san := by rw [← ho]
          have hbs : b.Sanitized = san := by rw [hsanb, hosan]
          have hbsid : b.SessionID = r.SessionID := by rw [hsid, hosid]
          have hoseq : o.SeqSessionID =
              (match st.sessionIDs r.SessionID with
                | some v => v
                | none => st.nextID) := by rw [← ho]
          have hstepb : seqStep san 0 (rnd1 k1) st b = some (st1, b) := by
            simp only [seqStep, hbs, bne_self_eq_false, Bool.false_eq_true, if_false, hbsid,
              Option.some.injEq, Prod.mk.injEq]
            refine ⟨hst1, ?_⟩
            have hb : b.SeqSessionID =
                (match st.sessionIDs r.SessionID with
                  | some v => v
                  | none => st.nextID) := by rw [hseq, hoseq]
            rw [← hb]
            cases b
            simp only [EnrichedRecord.mk.injEq, true_and, and_true]
            exact ⟨hbsid.symm, hbs.symm, by simp⟩
          simp only [seqLoop, hstepb, ih]

theorem markLast_idem : ∀ l : List EnrichedRecord, markLast (markLast l).1 = markLast l
  | [] => by simp [markLast]
  | r :: rest => by
    have ih := markLast_idem rest
    cases hin : (markLast rest).2 r.SessionID
    · rw [markLast_cons_new r rest hin]
      have hin1 : (markLast (markLast rest).1).2
          ({ r with LastRecordOfSession := true } : EnrichedRecord).SessionID = false := by
        rw [ih]; exact hin
      rw [markLast_cons_new _ _ hin1, ih]
    · rw [markLast_cons_seen r rest hin]
      have hin1 : (markLast (markLast rest).1).2 r.SessionID = true := by
        rw [ih]; exact hin
      rw [markLast_cons_seen _ _ hin1, ih]

theorem sameKey_of_markRel {l l1 : List EnrichedRecord} (h : List.Forall₂ MarkRel l l1) :
    List.Forall₂ SameKey l l1 := by
  induction h with
  | nil => exact List.Forall₂.nil
  | cons hab _ ih =>
    refine List.Forall₂.cons ?_ ih
    unfold MarkRel at hab
    refine ⟨?_, ?_, ?_⟩ <;> rw [hab]

/-- C13. With a debug-sampling rate of zero and records that agree with the sanitized mode,
`preprocessDeviceRecords` applied to its own output returns that output unchanged, whatever
the random draws are. -/
theorem C13_preprocessDeviceRecords_idempotent (e : evaluator) (rnd rnd1 : Nat → Rat)
    (device : deviceRecords)
    (hsan : ∀ r ∈ device.Records, r.Sanitized = e.sanitizedInput)
    (hdbg : e.debugRecords = 0) :
    ∃ out, preprocessDeviceRecords e rnd device = some out ∧
      preprocessDeviceRecords e rnd1 out = some out := by
  obtain ⟨out0, hout0, _, _⟩ := seqLoop_total e.sanitizedInput e.debugRecords rnd
    device.Records { sessionIDs := fun _ => none, nextID := 1 } 0 hsan
  have hagain := seqLoop_again e.sanitizedInput e.debugRecords rnd rnd1 device.Records
    { sessionIDs := fun _ => none, nextID := 1 } 0 out0 hout0 (markLast out0).1 0
    (sameKey_of_markRel (markLast_rel out0))
  refine ⟨{ device with Records := (markLast out0).1 }, ?_, ?_⟩
  · simp only [preprocessDeviceRecords, hout0]
  · simp only [preprocessDeviceRecords, hdbg, hagain, markLast_idem]

/-- Instance of C13 on a device with records of the sessions `s1`, `s2`, `s1`. -/
theorem C13_preprocessDeviceRecords_idempotent_witness :
    (∀ r ∈ sampleDevice.Records, r.Sanitized = (sampleEvaluator false []).sanitizedInput) ∧
    (sampleEvaluator false []).debugRecords = 0 ∧
    ∃ out, preprocessDeviceRecords (sampleEvaluator false []) (fun _ => 0) sampleDevice =
        some out ∧
      preprocessDeviceRecords (sampleEvaluator false []) (fun _ => 1 / 2) out = some out ∧
      out.Records.map (fun r => (r.SeqSessionID, r.LastRecordOfSession)) =
        [(1, false), (2, true), (1, true)] := by
  refine ⟨by decide, rfl, ?_⟩
  obtain ⟨out, h1, h2⟩ := C13_preprocessDeviceRecords_idempotent (sampleEvaluator false [])
    (fun _ => 0) (fun _ => 1 / 2) sampleDevice (by decide) rfl
  refine ⟨out, h1, h2, ?_⟩
  have hval : (preprocessDeviceRecords (sampleEvaluator false []) (fun _ => 0) sampleDevice).map
      (fun d => d.Records.map (fun r => (r.SeqSessionID, r.LastRecordOfSession))) =
      some [(1, false), (2, true), (1, true)] := by decide
  rw [h1] at hval
  exact Option.some.inj hval

/-! ## The timezone offset -/

theorem digitChar_ne_colon : ∀ d : Fin 10, digitChar d ≠ ':' := by decide

theorem splitColon_zone (negative : Bool) (h1 h2 m1 m2 : Fin 10) :
    splitColon (zoneString negative h1 h2 m1 m2).data =
      [[if negative then '-' else '+', digitChar h1, digitChar h2],
       [digitChar m1, digitChar m2]] := by
  have hs : (if negative then '-' else '+') ≠ ':' := by cases negative <;> decide
  simp [zoneString, splitColon, hs, digitChar_ne_colon]

theorem Atoi_hours : ∀ (negative : Bool) (h1 h2 : Fin 10),
    Atoi [if negative then '-' else '+', digitChar h1, digitChar h2] =
      some ((if negative then -1 else 1) * ((10 * h1.val + h2.val : Nat) : Int)) := by
  decide

theorem Atoi_mins : ∀ (m1 m2 : Fin 10),
    Atoi [digitChar m1, digitChar m2] = some ((10 * m1.val + m2.val : Nat) : Int) := by
  decide

theorem wrapInt64_of_small (x : Int) (h1 : -(2 : Int) ^ 63 ≤ x) (h2 : x < (2 : Int) ^ 63) :
    wrapInt64 x = x := by
  unfold wrapInt64
  have h3 : (2 : Int) ^ 63 = 9223372036854775808 := by norm_num
  have h4 : (2 : Int) ^ 64 = 18446744073709551616 := by norm_num
  rw [h3] at h1 h2 ⊢
  rw [h4]
  omega

/-- The arithmetic of `getTimezoneOffsetInSeconds` does not wrap on two-digit hours and
minutes. -/
theorem wrapInt64_offset (sign H M : Int) (hs : sign = 1 ∨ sign = -1)
    (hH : 0 ≤ H ∧ H ≤ 99) (hM : 0 ≤ M ∧ M ≤ 99) :
    wrapInt64 (wrapInt64 (wrapInt64 (sign * H * 60) + M) * 60) = sign * H * 3600 + M * 60 := by
  have h3 : (2 : Int) ^ 63 = 9223372036854775808 := by norm_num
  have e1 : wrapInt64 (sign * H * 60) = sign * H * 60 := by
    apply wrapInt64_of_small <;> rw [h3] <;> rcases hs with rfl | rfl <;> omega
  rw [e1]
  have e2 : wrapInt64 (sign * H * 60 + M) = sign * H * 60 + M := by
    apply wrapInt64_of_small <;> rw [h3] <;> rcases hs with rfl | rfl <;> omega
  rw [e2]
  have e3 : wrapInt64 ((sign * H * 60 + M) * 60) = (sign * H * 60 + M) * 60 := by
    apply wrapInt64_of_small <;> rw [h3] <;> rcases hs with rfl | rfl <;> omega
  rw [e3]
  ring

/-- What `getTimezoneOffsetInSeconds` returns on a timezone string made of a sign, two hour
digits, a colon and two minute digits: the hours carry the sign, the minutes are added as
they are. -/
theorem getTimezoneOffsetInSeconds_zoneString (negative : Bool) (h1 h2 m1 m2 : Fin 10) :
    getTimezoneOffsetInSeconds (zoneString negative h1 h2 m1 m2) =
      some ((if negative then -1 else 1) * ((10 * h1.val + h2.val : Nat) : Int) * 3600 +
        ((10 * m1.val + m2.val : Nat) : Int) * 60) := by
  have hh := h1.isLt
  have hh2 := h2.isLt
  have hm := m1.isLt
  have hm2 := m2.isLt
  unfold getTimezoneOffsetInSeconds
  simp only [splitColon_zone, List.headD_cons, Atoi_hours, List.getElem?_cons_succ,
    List.getElem?_cons_zero, Atoi_mins]
  congr 1
  apply wrapInt64_offset
  · cases negative <;> simp
  · constructor <;> omega
  · constructor <;> omega

/-- C14. On "+05:30" `getTimezoneOffsetInSeconds` returns 19800, but on "-03:30" it returns
-9000 where the signed offset is -12600: the minutes do not carry the sign of the hours. On
every timezone string of the form the result is the signed offset exactly when the sign is
positive or the minutes are zero. -/
theorem C14_timezone_minutes_do_not_carry_the_sign :
    getTimezoneOffsetInSeconds "+05:30" = some 19800 ∧
    getTimezoneOffsetInSeconds "-03:30" = some (-9000) ∧
    zoneString true 0 3 3 0 = "-03:30" ∧
    signedOffset true 0 3 3 0 = -12600 ∧
    (∀ (negative : Bool) (h1 h2 m1 m2 : Fin 10),
      getTimezoneOffsetInSeconds (zoneString negative h1 h2 m1 m2) =
          some (signedOffset negative h1 h2 m1 m2) ↔
        (negative = false ∨ (m1.val = 0 ∧ m2.val = 0))) := by
  refine ⟨by decide, by decide, by decide, by decide, ?_⟩
  intro negative h1 h2 m1 m2
  have hm := m1.isLt
  have hm2 := m2.isLt
  rw [getTimezoneOffsetInSeconds_zoneString, Option.some.injEq]
  unfold signedOffset
  cases negative with
  | true =>
    simp only [if_true, Bool.true_eq_false, false_or]
    push_cast
    constructor
    · intro h; omega
    · intro h; omega
  | false =>
    simp only [Bool.false_eq_true, if_false, true_or, iff_true]
    push_cast
    ring

end Resh


